/-
Verification of the document question-answering pipeline (chunking,
text preprocessing, retrieval and answer generation services).

The development shallowly embeds the pipeline's pure computations:

* `create_overlapping_chunks` / `chunkStep` embed
  `SmartChunker.create_overlapping_chunks` (services/smart_chunker.py),
  working directly on token-id lists; a chunk is represented by the token
  sequence it is built from, so its token count is the list length.  The
  tokenizer-dependent id of the single space token appended between
  segments is the parameter `spaceTok`.
* `get_by_ids` embeds `DocumentStore.get_by_ids`
  (services/document_store.py) over a store that maps a chunk's index to
  its text, and `search_index_post` embeds the result post-processing of
  `search_index` (services/retriever.py): sentinel filtering, chunk
  resolution and positional pairing with the returned distance row.
  Distances are modelled as rationals.

Text is modelled as `List Char` (ASCII scope).
-/
import Mathlib

/-- Text is modelled as a list of characters. -/
abbrev Text := List Char

/-! ## Token-aware chunker (services/smart_chunker.py) -/

/-- Configuration of `SmartChunker.create_overlapping_chunks`:
`max_tokens` and `overlap_tokens` from the constructor, and `spaceTok`,
the token id of `self.tokenize_text(" ")[0]`. -/
structure ChunkCfg where
  max_tokens : Nat
  overlap_tokens : Nat
  spaceTok : Nat

/-- One iteration of the `for segment in segments` loop of
`SmartChunker.create_overlapping_chunks`.  The state is the pair of the
chunks emitted so far and the current chunk's token buffer. -/
def chunkStep (cfg : ChunkCfg) (st : List (List Nat) × List Nat) (seg : List Nat) :
    List (List Nat) × List Nat :=
  if cfg.max_tokens < st.2.length + seg.length then
    if st.2.isEmpty then (st.1, seg)
    else
      (st.1 ++ [st.2],
        (if cfg.overlap_tokens < st.2.length
          then st.2.drop (st.2.length - cfg.overlap_tokens) else []) ++ seg)
  else
    if st.2.isEmpty then (st.1, seg)
    else (st.1, (st.2 ++ [cfg.spaceTok]) ++ seg)

/-- The `SmartChunker.create_overlapping_chunks`: fold `chunkStep` over the
segments and append the final non-empty buffer. -/
def create_overlapping_chunks (cfg : ChunkCfg) (segments : List (List Nat)) :
    List (List Nat) :=
  if segments.isEmpty then []
  else
    let st := segments.foldl (chunkStep cfg) ([], [])
    if st.2.isEmpty then st.1 else st.1 ++ [st.2]

/-! ## Retrieval (services/retriever.py, services/document_store.py) -/

/-- The `DocumentStore.get_by_ids`: the store maps a chunk's index to the
chunk text, and `self._store.get(id, "")` yields the empty string for any
id outside the store (negative ids included). -/
def get_by_ids (store : List Text) (ids : List Int) : List Text :=
  ids.map fun i => if i < 0 then [] else store.getD i.toNat []

/-- Post-processing of `search_index` (steps 3 and 4): drop the sentinel
id `-1`, resolve the surviving ids through the store, and pair the i-th
resolved chunk with `distances[0][i]`, the i-th entry of the returned
distance row. -/
def search_index_post (store : List Text) (ids : List Int) (distances : List ℚ) :
    List (Text × ℚ) :=
  let retrieved_ids := ids.filter (fun i => i != -1)
  if retrieved_ids.isEmpty then []
  else List.zip (get_by_ids store retrieved_ids) distances

/-! ## Character classes (ASCII scope of the regex character classes) -/

/-- Characters matched by the regex class `[ \t]`. -/
def isSpaceTab (c : Char) : Bool := c = ' ' || c = '\t'

/-- The newline character. -/
def isNl (c : Char) : Bool := c = '\n'

/-- Characters matched by the regex class `\s` and stripped by `str.strip()`. -/
def isPyWs (c : Char) : Bool :=
  c = ' ' || c = '\t' || c = '\n' || c = '\r' || c = '\x0b' || c = '\x0c'

/-- Characters matched by `[a-z]`. -/
def isAsciiLower (c : Char) : Bool := 'a' ≤ c && c ≤ 'z'

/-- Characters matched by `[A-Z]`. -/
def isAsciiUpper (c : Char) : Bool := 'A' ≤ c && c ≤ 'Z'

/-- Characters matched by `\d` (ASCII scope). -/
def isAsciiDigit (c : Char) : Bool := '0' ≤ c && c ≤ '9'

/-- Characters matched by `[a-zA-Z]`. -/
def isAsciiAlpha (c : Char) : Bool := isAsciiLower c || isAsciiUpper c

/-- Characters matched by `\w` (ASCII scope). -/
def isWordChar (c : Char) : Bool := isAsciiAlpha c || isAsciiDigit c || c = '_'

/-- The full stop character, regex class `[\.]`. -/
def isDot (c : Char) : Bool := c = '.'

/-- The hyphen character, regex class `[-]`. -/
def isDash (c : Char) : Bool := c = '-'

/-! ## Normalization stages (services/text_preprocessor.py) -/

/-- The `TextPreprocessor.normalize_unicode`: `unicodedata.normalize('NFKD', text)`.
On the embedded ASCII character domain NFKD acts as the identity (NFKD is a
library function; its value on non-ASCII input is outside the model's scope,
and NFKD output is NFKD-stable by the Unicode standard). -/
def normalize_unicode (t : Text) : Text := t

/-- The `re.sub(r'[ \t]+', ' ', text)`: every maximal run of spaces and tabs is
replaced by a single space.  The run's characters are consumed one by one and
a single `' '` is emitted at the run's last character. -/
def collapseSpaceTab : Text → Text
  | [] => []
  | [c] => if isSpaceTab c then [' '] else [c]
  | a :: b :: r =>
    if isSpaceTab a then
      if isSpaceTab b then collapseSpaceTab (b :: r)
      else ' ' :: collapseSpaceTab (b :: r)
    else a :: collapseSpaceTab (b :: r)

/-- The `re.sub(p{3,}, pp)` for a single-character class `p` (the code uses it as
`re.sub(r'\n{3,}', '\n\n', text)`): while three consecutive `p`-characters
are in view, one of them is dropped, so every maximal run of `k ≥ 3` ends up
with exactly two characters. -/
def collapseTriple (p : Char → Bool) : Text → Text
  | a :: b :: c :: r =>
    if p a && p b && p c then collapseTriple p (b :: c :: r)
    else a :: collapseTriple p (b :: c :: r)
  | l => l

/-- The `re.sub(p{3,}, ppp)` for a single-character class `p` (the code uses it
as `re.sub(r'[\.]{3,}', '...', text)` and `re.sub(r'[-]{3,}', '---', text)`):
while four consecutive `p`-characters are in view one is dropped, so every
maximal run of `k ≥ 3` ends up with exactly three characters. -/
def collapseQuad (p : Char → Bool) : Text → Text
  | a :: b :: c :: d :: r =>
    if p a && p b && p c && p d then collapseQuad p (b :: c :: d :: r)
    else a :: collapseQuad p (b :: c :: d :: r)
  | l => l

/-- Removal of trailing characters satisfying `p` (the right half of
`str.strip()`). -/
def dropTrailing (p : Char → Bool) : Text → Text
  | [] => []
  | c :: r =>
    match dropTrailing p r with
    | [] => if p c then [] else [c]
    | r' => c :: r'

/-- Python `str.strip()`: drop leading and trailing whitespace. -/
def pyStrip (t : Text) : Text := dropTrailing isPyWs (t.dropWhile isPyWs)

/-- The `TextPreprocessor.remove_excessive_whitespace`: collapse `[ \t]+` runs to
a single space, collapse `\n{3,}` runs to two newlines, then strip. -/
def remove_excessive_whitespace (t : Text) : Text :=
  pyStrip (collapseTriple isNl (collapseSpaceTab t))

/-- The `re.sub(r'(X)(Y)', r'\1 \2', text)` for single-character classes `X`,
`Y`: a space is inserted between every (leftmost, non-overlapping) adjacent
pair of an `X`-character followed by a `Y`-character; scanning resumes after
the pair. -/
def ocrSub (X Y : Char → Bool) : Text → Text
  | [] => []
  | [c] => [c]
  | a :: b :: r =>
    if X a && Y b then a :: ' ' :: b :: ocrSub X Y r
    else a :: ocrSub X Y (b :: r)

/-- The four OCR space-insertion repairs of `TextPreprocessor.clean_chunk`,
in source order: space before capitals, space after periods, space before
numbers, space after numbers. -/
def ocrRepairs (t : Text) : Text :=
  ocrSub isAsciiDigit isAsciiLower
    (ocrSub isAsciiLower isAsciiDigit
      (ocrSub isDot isAsciiUpper
        (ocrSub isAsciiLower isAsciiUpper t)))

/-- The two repeated-punctuation collapses of `TextPreprocessor.clean_chunk`,
in source order: dots, then hyphens. -/
def punctCollapse (t : Text) : Text :=
  collapseQuad isDash (collapseQuad isDot t)

/-- The normalization pipeline of `TextPreprocessor.clean_chunk`, i.e. the
stages of lines 87-112 of services/text_preprocessor.py other than the noise
gate: unicode normalization, `remove_excessive_whitespace`, the OCR
space-insertion repairs, the repeated-punctuation collapses, and the final
strip. -/
def normalizeText (t : Text) : Text :=
  pyStrip (punctCollapse (ocrRepairs (remove_excessive_whitespace (normalize_unicode t))))

/-! ## Invariants describing the fixed points of the stages -/

/-- No adjacent pair of a `P`-character followed by a `Q`-character. -/
def noPair (P Q : Char → Bool) : Text → Bool
  | a :: b :: r => !(P a && Q b) && noPair P Q (b :: r)
  | _ => true

/-- No three consecutive `p`-characters. -/
def noTripleRun (p : Char → Bool) : Text → Bool
  | a :: b :: c :: r => !(p a && p b && p c) && noTripleRun p (b :: c :: r)
  | _ => true

/-- No four consecutive `p`-characters. -/
def noQuadRun (p : Char → Bool) : Text → Bool
  | a :: b :: c :: d :: r =>
    !(p a && p b && p c && p d) && noQuadRun p (b :: c :: d :: r)
  | _ => true

/-- The first and last characters, when they exist, are not whitespace. -/
def noEdgeWs (t : Text) : Bool :=
  (match t.head? with | none => true | some c => !isPyWs c) &&
    (match t.getLast? with | none => true | some c => !isPyWs c)

/-- The `SpIns X Y l t` says `t` arises from `l` by inserting single spaces
between some adjacent pairs of an `X`-character followed by a
`Y`-character; it over-approximates the effect of `ocrSub X Y`. -/
inductive SpIns (X Y : Char → Bool) : Text → Text → Prop where
  | nil : SpIns X Y [] []
  | keep (c : Char) {l t : Text} : SpIns X Y l t → SpIns X Y (c :: l) (c :: t)
  | ins (a b : Char) {l t : Text} : X a = true → Y b = true →
      SpIns X Y (b :: l) t → SpIns X Y (a :: b :: l) (a :: ' ' :: t)

/-! ## Word extraction (regex `\b\w+\b`) -/

/-- Python `str.lower()` on the ASCII domain. -/
def lowerText (t : Text) : Text := t.map Char.toLower

/-- Worker for `re.findall(r'\b\w+\b', s)`: `cur` holds the growing word
reversed; a non-word character flushes it. -/
def wordsOfAux (cur : Text) : Text → List Text
  | [] => if cur.isEmpty then [] else [cur.reverse]
  | c :: r =>
    if isWordChar c then wordsOfAux (c :: cur) r
    else if cur.isEmpty then wordsOfAux [] r
    else cur.reverse :: wordsOfAux [] r

/-- The `re.findall(r'\b\w+\b', s)`: the maximal runs of word characters. -/
def wordsOf (t : Text) : List Text := wordsOfAux [] t

/-- Word set of a text: lowercase, find all words, collect into a set. -/
def wordSet (t : Text) : Finset Text := (wordsOf (lowerText t)).toFinset

/-! ## Relevance scoring (services/answer_generator.py) -/

/-- The stop-word set of `calculate_relevance_score`. -/
def relevanceStopWords : Finset Text :=
  (["the", "a", "an", "and", "or", "but", "in", "on", "at", "to", "for",
    "of", "with", "by", "is", "are", "was", "were", "be", "been", "have",
    "has", "had", "do", "does", "did", "will", "would", "could", "should",
    "may", "might", "must", "can", "this", "that", "these",
    "those"].map String.data).toFinset

/-- The `calculate_relevance_score`: Jaccard similarity of the stop-word-free
word sets, `0` when the question has no content words, with the code's
`union > 0` guard. -/
def calculate_relevance_score (chunk question : Text) : ℚ :=
  let question_words := wordSet question \ relevanceStopWords
  let chunk_words := wordSet chunk \ relevanceStopWords
  if question_words = ∅ then 0
  else
    let i := (question_words ∩ chunk_words).card
    let u := (question_words ∪ chunk_words).card
    if 0 < u then (i : ℚ) / u else 0

/-- Characters kept by the whitelist substitution in `clean_text`; every
other character is replaced by a space. -/
def isKeptChar (c : Char) : Bool :=
  isWordChar c || isPyWs c || c = '.' || c = ',' || c = '!' || c = '?' ||
    c = ';' || c = ':' || c = '-' || c = '(' || c = ')' || c = '[' ||
    c = ']' || c = '\x7b' || c = '\x7d' || c = '\x22' || c = '\x27' ||
    c = '/' || c = '@' || c = '#' || c = '$' || c = '%' || c = '&' ||
    c = '*' || c = '+' || c = '=' || c = '<' || c = '>' || c = '~' ||
    c = '\x60'

/-- The `re.sub(r'\s+', ' ', text)`: every maximal whitespace run becomes a
single space. -/
def collapseWsRun : Text → Text
  | [] => []
  | [c] => if isPyWs c then [' '] else [c]
  | a :: b :: r =>
    if isPyWs a then
      if isPyWs b then collapseWsRun (b :: r)
      else ' ' :: collapseWsRun (b :: r)
    else a :: collapseWsRun (b :: r)

/-- The `clean_text` of services/answer_generator.py: strip and collapse
whitespace, blank out non-whitelisted characters, reject fragments shorter
than 20 characters and texts whose letter share is below 30% (the float
`0.3` is modelled as the exact rational 3/10). -/
def clean_text (t : Text) : Text :=
  if pyStrip t = [] then []
  else
    let s := (collapseWsRun (pyStrip t)).map (fun c => if isKeptChar c then c else ' ')
    if s.length < 20 then []
    else if 10 * (s.filter isAsciiAlpha).length < 3 * s.length then []
    else s

/-- Stable descending sort by a rational key: Python's stable
`list.sort(key=..., reverse=True)` / `sorted(..., reverse=True)`. -/
def sortByKeyDesc {α : Type} (key : α → ℚ) (l : List α) : List α :=
  List.insertionSort (fun a b => key b ≤ key a) l

/-- ANSWER_CONFIG of config.py (floats as exact rationals). -/
structure AnswerConfig where
  max_context_chunks : Nat
  min_relevance_threshold : ℚ
  enable_advanced_filtering : Bool
  fallback_to_basic : Bool

/-- The concrete ANSWER_CONFIG values of config.py. -/
def ANSWER_CONFIG : AnswerConfig := ⟨3, 1/10, true, true⟩

/-- The `filter_and_rank_chunks`: clean every chunk, drop the empties, score
against the question, sort stably by descending score, drop scores below
`min_relevance` and keep the first `max_chunks`.  `minRel` is
`answer_config["min_relevance_threshold"]` and `maxChunks` defaults to
`answer_config["max_context_chunks"]`; both are parameters here. -/
def filter_and_rank_chunks (minRel : ℚ) (maxChunks : Nat)
    (context_chunks : List Text) (question : Text) : List Text :=
  let cleaned_chunks := (context_chunks.map clean_text).filter (fun c => !c.isEmpty)
  if cleaned_chunks.isEmpty then []
  else
    let chunk_scores := cleaned_chunks.map
      (fun c => (c, calculate_relevance_score c question))
    let sorted := sortByKeyDesc (fun p => p.2) chunk_scores
    let relevant := (sorted.filter (fun p => decide (minRel ≤ p.2))).map Prod.fst
    relevant.take maxChunks

/-! ## Semantic density (services/text_preprocessor.py) -/

/-- The stop-word set of the `TextPreprocessor` (with pronouns). -/
def preprocessorStopWords : Finset Text :=
  (["the", "a", "an", "and", "or", "but", "in", "on", "at", "to", "for",
    "of", "with", "by", "is", "are", "was", "were", "be", "been", "have",
    "has", "had", "do", "does", "did", "will", "would", "could", "should",
    "may", "might", "must", "can", "this", "that", "these", "those", "i",
    "you", "he", "she", "it", "we", "they", "me", "him", "her", "us",
    "them"].map String.data).toFinset

/-- The `TextPreprocessor.calculate_semantic_density`: unique-content-word
ratio plus a capped average-length bonus, clamped to 1 (floats `8.0`, `0.2`
modelled as exact rationals). -/
def calculate_semantic_density (t : Text) : ℚ :=
  let words := wordsOf (lowerText t)
  if words.isEmpty then 0
  else
    let content_words := words.filter
      (fun w => decide (w ∉ preprocessorStopWords) && decide (2 < w.length))
    let unique_words := content_words.toFinset.card
    let total := content_words.length
    if total = 0 then 0
    else
      let density : ℚ := (unique_words : ℚ) / (max total 1 : ℕ)
      let avg : ℚ := (((content_words.map List.length).sum : ℕ) : ℚ) / (max total 1 : ℕ)
      min (density + min (avg / 8) 1 * (1 / 5)) 1

/-- The density formula exactly as claim C8 words it: computed over the
lowercase words remaining after removing the stop-word set only (no
length-based filtering of words). -/
def densitySpecClaim (t : Text) : ℚ :=
  let content := (wordsOf (lowerText t)).filter
    (fun w => decide (w ∉ preprocessorStopWords))
  if content.length = 0 then 0
  else
    min ((content.toFinset.card : ℚ) / (content.length : ℕ)
      + min ((((content.map List.length).sum : ℕ) : ℚ) / (content.length : ℕ) / 8) 1
        * (1 / 5)) 1

/-- The density formula of C8 amended with the code's additional
`len(w) > 2` filter on content words. -/
def densitySpecAmended (t : Text) : ℚ :=
  let content := (wordsOf (lowerText t)).filter
    (fun w => decide (w ∉ preprocessorStopWords) && decide (2 < w.length))
  if content.length = 0 then 0
  else
    min ((content.toFinset.card : ℚ) / (content.length : ℕ)
      + min ((((content.map List.length).sum : ℕ) : ℚ) / (content.length : ℕ) / 8) 1
        * (1 / 5)) 1

/-! ## Noise detection (services/text_preprocessor.py) -/

/-- Pattern `^[^a-zA-Z0-9]*$`: only special characters. -/
def noisePat1 (s : Text) : Bool := s.all (fun c => !(isAsciiAlpha c || isAsciiDigit c))

/-- Pattern `^[\d\s\-\.\,]{10,}$`: only numbers and basic punctuation. -/
def noisePat2 (s : Text) : Bool :=
  decide (10 ≤ s.length) &&
    s.all (fun c => isAsciiDigit c || isPyWs c || c = '-' || c = '.' || c = ',')

/-- Pattern `^[A-Z\s]{5,}$` under `re.IGNORECASE`: with the flag, `[A-Z]`
matches any ASCII letter, so the pattern matches any string of at least
five letters and whitespace. -/
def noisePat3 (s : Text) : Bool :=
  decide (5 ≤ s.length) && s.all (fun c => isAsciiAlpha c || isPyWs c)

/-- Pattern `^\s*Page\s+\d+\s*$` under `re.IGNORECASE`. -/
def noisePat4 (s : Text) : Bool :=
  match s.dropWhile isPyWs with
  | p :: a :: g :: e :: w :: rest =>
    (Char.toLower p == 'p') && (Char.toLower a == 'a') &&
      (Char.toLower g == 'g') && (Char.toLower e == 'e') && isPyWs w &&
      (let r1 := (w :: rest).dropWhile isPyWs
       !(r1.takeWhile isAsciiDigit).isEmpty &&
         (r1.dropWhile isAsciiDigit).all isPyWs)
  | _ => false

/-- Pattern `^\s*\d+\s*$`: just a number. -/
def noisePat5 (s : Text) : Bool :=
  let r1 := s.dropWhile isPyWs
  !(r1.takeWhile isAsciiDigit).isEmpty && (r1.dropWhile isAsciiDigit).all isPyWs

/-- Pattern `^[^\w\s]{3,}$`: multiple consecutive special characters. -/
def noisePat6 (s : Text) : Bool :=
  decide (3 ≤ s.length) && s.all (fun c => !(isWordChar c || isPyWs c))

/-- The `TextPreprocessor.is_noise_chunk`: short texts are noise, then the six
noise patterns are tried against the stripped text (case-insensitively),
then the letter share of the text with spaces removed must reach 30% (the
float `0.3` is modelled as the exact rational 3/10). -/
def is_noise_chunk (t : Text) : Bool :=
  if (pyStrip t).length < 15 then true
  else if noisePat1 (pyStrip t) || noisePat2 (pyStrip t) || noisePat3 (pyStrip t) ||
      noisePat4 (pyStrip t) || noisePat5 (pyStrip t) || noisePat6 (pyStrip t) then true
  else if 0 < (t.filter (fun c => decide (c ≠ ' '))).length ∧
      10 * (t.filter isAsciiAlpha).length <
        3 * (t.filter (fun c => decide (c ≠ ' '))).length then true
  else false

/-- The `TextPreprocessor.clean_chunk`: empty-or-blank guard, unicode
normalization, whitespace collapsing, noise gate, OCR repairs, punctuation
collapses, final strip. -/
def clean_chunk (t : Text) : Text :=
  if pyStrip t = [] then []
  else
    let s := remove_excessive_whitespace (normalize_unicode t)
    if is_noise_chunk s then []
    else pyStrip (punctCollapse (ocrRepairs s))

/-! ## Key-phrase extraction (services/text_preprocessor.py) -/

/-- The `\b` test after a match: the next character, if any, is not a word
character. -/
def wordBoundaryAfter (rest : Text) : Bool :=
  match rest.head? with
  | none => true
  | some c => !isWordChar c

/-- Match `[A-Z][a-z]+` at the start of `s`, greedily; returns the matched
word and the rest, with the consumed length recorded for termination. -/
def matchCapWord (s : Text) : Option { pr : Text × Text // pr.2.length < s.length } :=
  match s with
  | [] => none
  | c :: r =>
    if isAsciiUpper c then
      match r.takeWhile isAsciiLower with
      | [] => none
      | l0 :: ls =>
        some ⟨(c :: l0 :: ls, r.dropWhile isAsciiLower), by
          dsimp only
          have := (List.dropWhile_sublist (l := r) isAsciiLower).length_le
          simp only [List.length_cons]
          omega⟩
    else none

/-- Match `\s+[A-Z][a-z]+` at the start of `s`: a non-empty whitespace run
followed by a capitalized word. -/
def matchWsCapWord (s : Text) :
    Option { pr : Text × Text × Text // pr.2.2.length < s.length } :=
  match hws : s.takeWhile isPyWs with
  | [] => none
  | w0 :: wr =>
    match matchCapWord (s.dropWhile isPyWs) with
    | none => none
    | some ⟨(w, rest), h⟩ =>
      some ⟨(w0 :: wr, w, rest), by
        dsimp only
        dsimp only at h
        have h1 : s.takeWhile isPyWs ++ s.dropWhile isPyWs = s :=
          List.takeWhile_append_dropWhile isPyWs s
        have h2 : (s.takeWhile isPyWs).length + (s.dropWhile isPyWs).length
            = s.length := by rw [← List.length_append, h1]
        rw [hws] at h2
        simp only [List.length_cons] at h2
        omega⟩

/-- Match the phrase pattern `\b[A-Z][a-z]+(?:\s+[A-Z][a-z]+){1,2}\b` at
the start of `s` (the leading `\b` is checked by the caller): greedily try
two repetitions, fall back to one, and check the trailing word boundary. -/
def matchPhraseA (s : Text) : Option { pr : Text × Text // pr.2.length < s.length } :=
  match matchCapWord s with
  | none => none
  | some ⟨(w1, r1), h1⟩ =>
    match matchWsCapWord r1 with
    | none => none
    | some ⟨(ws1, w2, r2), h2⟩ =>
      match matchWsCapWord r2 with
      | some ⟨(ws2, w3, r3), h3⟩ =>
        if wordBoundaryAfter r3 then
          some ⟨(w1 ++ ws1 ++ w2 ++ ws2 ++ w3, r3), by
            dsimp only
            dsimp only at h1 h2 h3
            omega⟩
        else if wordBoundaryAfter r2 then
          some ⟨(w1 ++ ws1 ++ w2, r2), by
            dsimp only
            dsimp only at h1 h2
            omega⟩
          else none
      | none =>
        if wordBoundaryAfter r2 then
          some ⟨(w1 ++ ws1 ++ w2, r2), by
            dsimp only
            dsimp only at h1 h2
            omega⟩
        else none

/-- Match `\b[A-Z][a-z]{4,}\b` at the start of `s`: a capitalized word of
total length at least five with a trailing word boundary. -/
def matchCapWordLong (s : Text) :
    Option { pr : Text × Text // pr.2.length < s.length } :=
  match matchCapWord s with
  | none => none
  | some ⟨(w, rest), h⟩ =>
    if 5 ≤ w.length && wordBoundaryAfter rest then some ⟨(w, rest), h⟩ else none

/-- The `re.findall` scan for the multi-word phrase pattern: try a match at
every position whose preceding character is not a word character, and
resume after each (non-overlapping) match. -/
def scanPhrasesA (prevWord : Bool) (s : Text) : List Text :=
  match s with
  | [] => []
  | c :: r =>
    if prevWord then scanPhrasesA (isWordChar c) r
    else
      match hm : matchPhraseA (c :: r) with
      | some ⟨(ph, rest), hlt⟩ => ph :: scanPhrasesA true rest
      | none => scanPhrasesA (isWordChar c) r
termination_by s.length
decreasing_by
  · simp only [List.length_cons]; omega
  · dsimp only at hlt; exact hlt
  · simp only [List.length_cons]; omega

/-- The `re.findall` scan for the single-word pattern `\b[A-Z][a-z]{4,}\b`. -/
def scanPhrasesB (prevWord : Bool) (s : Text) : List Text :=
  match s with
  | [] => []
  | c :: r =>
    if prevWord then scanPhrasesB (isWordChar c) r
    else
      match hm : matchCapWordLong (c :: r) with
      | some ⟨(w, rest), hlt⟩ => w :: scanPhrasesB true rest
      | none => scanPhrasesB (isWordChar c) r
termination_by s.length
decreasing_by
  · simp only [List.length_cons]; omega
  · dsimp only at hlt; exact hlt
  · simp only [List.length_cons]; omega

/-- The `TextPreprocessor.extract_key_phrases`: the union of the matches of the
multi-word and single-word capitalized patterns, as a set. -/
def extract_key_phrases (t : Text) : Finset Text :=
  (scanPhrasesA false t).toFinset ∪ (scanPhrasesB false t).toFinset

/-! ## Quality ranking and answer generation -/

/-- The `TextPreprocessor.rank_chunks_by_quality`: clean each chunk, drop the
empties, score `density + 0.1 * len(key_phrases)` and sort stably by
descending score (the float `0.1` is modelled as 1/10). -/
def rank_chunks_by_quality (chunks : List Text) : List (Text × ℚ × Finset Text) :=
  let ranked_chunks := chunks.filterMap (fun chunk =>
    let cleaned := clean_chunk chunk
    if cleaned.isEmpty then none
    else
      let density := calculate_semantic_density cleaned
      let key_phrases := extract_key_phrases cleaned
      some (cleaned, density + (key_phrases.card : ℚ) * (1 / 10), key_phrases))
  sortByKeyDesc (fun p => p.2.1) ranked_chunks

/-- The `TextPreprocessor.preprocess_document_chunks`: rank by quality, keep
scores of at least 0.3 (modelled as 3/10), return the first
`max_chunks`. -/
def preprocess_document_chunks (chunks : List Text) (max_chunks : Nat) : List Text :=
  let ranked := rank_chunks_by_quality chunks
  let quality := (ranked.filter (fun p => decide ((3 : ℚ)/10 ≤ p.2.1))).map
    (fun p => p.1)
  quality.take max_chunks

/-- Join a list of texts with a separator, Python `sep.join(l)`. -/
def joinWith (sep : Text) : List Text → Text
  | [] => []
  | [x] => x
  | x :: r => x ++ sep ++ joinWith sep r

/-- The fixed refusal answer literal of `generate_answer`. -/
def refusalText : Text := "The answer is not available in the provided context.".data

/-- The prompt f-string of `generate_answer` with the joined context and
the question spliced in. -/
def buildPrompt (filtered_chunks : List Text) (question : Text) : Text :=
  "\nYou are a helpful assistant who answers questions based ONLY on the provided context.\n\nContext:\n---\n".data
    ++ joinWith "\n\n".data filtered_chunks
    ++ "\n---\n\nQuestion: ".data ++ question
    ++ "\n\nInstructions:\n1. Read the context carefully and identify the most relevant information.\n2. Formulate a clear, concise, and accurate answer based strictly on the information given in the context.\n3. If the information needed to answer the question is not in the context, you must respond with exactly this phrase: \"The answer is not available in the provided context.\"\n4. Focus on providing factual information and avoid making assumptions or inferences beyond what is explicitly stated.\n5. If multiple pieces of information are relevant, synthesize them coherently.\n".data

/-- Outcome of `generate_answer`: either a string returned directly, or a
call to the generation collaborator (`model.generate_content`) with the
built prompt.  The collaborator itself is outside the embedding. -/
inductive GenOutcome where
  | answer (text : Text)
  | callModel (prompt : Text)

/-- The `generate_answer` control flow of services/answer_generator.py.  The
advanced path's exception fallback is not modelled: the embedded stages
are total functions and raise nothing. -/
def generate_answer (cfg : AnswerConfig) (context_chunks : List Text)
    (question : Text) : GenOutcome :=
  if cfg.enable_advanced_filtering then
    let cleaned_chunks := preprocess_document_chunks context_chunks cfg.max_context_chunks
    if cleaned_chunks.isEmpty then .answer refusalText
    else
      let filtered_chunks := filter_and_rank_chunks cfg.min_relevance_threshold
        cfg.max_context_chunks cleaned_chunks question
      if filtered_chunks.isEmpty then .answer refusalText
      else .callModel (buildPrompt filtered_chunks question)
  else
    .callModel (buildPrompt (filter_and_rank_chunks cfg.min_relevance_threshold
      cfg.max_context_chunks context_chunks question) question)

/-! ## Sentence and paragraph splitting (services/smart_chunker.py) -/

/-- The lookbehind class `(?<=[.!?])` of the sentence split. -/
def isSentPunct (c : Char) : Bool := c = '.' || c = '!' || c = '?'

/-- Worker for `re.split(r'(?<=[.!?])\s+', text)`: `acc` holds the current
piece reversed; when `skipping` the scanner is inside a separator's
whitespace run.  A whitespace character preceded by `.`, `!` or `?`
starts a separator and closes the piece. -/
def splitSentencesAux (skipping : Bool) (acc : Text) : Text → List Text
  | [] => [acc.reverse]
  | c :: r =>
    if skipping then
      if isPyWs c then splitSentencesAux true [] r
      else splitSentencesAux false [c] r
    else
      if isPyWs c && (match acc with | p :: _ => isSentPunct p | [] => false) then
        acc.reverse :: splitSentencesAux true [] r
      else splitSentencesAux false (c :: acc) r

/-- The `re.split(r'(?<=[.!?])\s+', text)` of
`SmartChunker.split_by_semantic_boundaries`. -/
def splitSentences (t : Text) : List Text := splitSentencesAux false [] t

/-- Worker for Python `text.split('\n\n')`. -/
def splitParasAux (acc : Text) : Text → List Text
  | [] => [acc.reverse]
  | '\n' :: '\n' :: r => acc.reverse :: splitParasAux [] r
  | c :: r => splitParasAux (c :: acc) r

/-- Python `text.split('\n\n')`. -/
def splitParas (t : Text) : List Text := splitParasAux [] t

/-- The `SmartChunker.split_by_semantic_boundaries`.  The tiktoken-based
`count_tokens` is the parameter `ctk` (the byte-pair encoder is a library
component outside the embedding). -/
def split_by_semantic_boundaries (ctk : Text → Nat) (max_tokens : Nat)
    (text : Text) : List Text :=
  (splitParas text).foldl (fun segments para0 =>
    let para := pyStrip para0
    if para.isEmpty then segments
    else if ctk para ≤ max_tokens then segments ++ [para]
    else
      let sentences := splitSentences para
      let st := sentences.foldl (fun (st : List Text × Text) sent0 =>
        let sent := pyStrip sent0
        if sent.isEmpty then st
        else
          let test := if st.2.isEmpty then sent else st.2 ++ (' ' :: sent)
          if ctk test ≤ max_tokens then (st.1, test)
          else if st.2.isEmpty then (st.1, sent)
          else (st.1 ++ [st.2], sent)) (segments, [])
      if st.2.isEmpty then st.1 else st.1 ++ [st.2]) []

/-- A concrete token counter used to instantiate `ctk` at concrete inputs:
the number of `\w+` words of the text. -/
def wordCountTokens (t : Text) : Nat := (wordsOf t).length

-- ===================================================================
-- Theorems
-- ===================================================================

/-! ## Chunk-size bound (C1) -/

theorem chunkStep_bound (cfg : ChunkCfg) (st : List (List Nat) × List Nat)
    (seg : List Nat)
    (h1 : ∀ c ∈ st.1, c.length ≤ cfg.max_tokens + max cfg.overlap_tokens 1)
    (h2 : st.2.length ≤ cfg.max_tokens + max cfg.overlap_tokens 1)
    (hseg : seg.length ≤ cfg.max_tokens) :
    (∀ c ∈ (chunkStep cfg st seg).1,
        c.length ≤ cfg.max_tokens + max cfg.overlap_tokens 1) ∧
      (chunkStep cfg st seg).2.length ≤ cfg.max_tokens + max cfg.overlap_tokens 1 := by
  obtain ⟨chunks, cur⟩ := st
  dsimp only at h1 h2
  unfold chunkStep
  dsimp only
  split_ifs with hov hemp hkeep hemp2 <;> dsimp only
  · exact ⟨h1, by omega⟩
  · constructor
    · intro c hc
      rcases List.mem_append.mp hc with h | h
      · exact h1 c h
      · simp only [List.mem_singleton] at h
        subst h; exact h2
    · simp only [List.length_append, List.length_drop]
      omega
  · constructor
    · intro c hc
      rcases List.mem_append.mp hc with h | h
      · exact h1 c h
      · simp only [List.mem_singleton] at h
        subst h; exact h2
    · simp only [List.nil_append]
      omega
  · exact ⟨h1, by omega⟩
  · refine ⟨h1, ?_⟩
    simp only [List.length_append, List.length_cons, List.length_nil]
    omega

theorem foldl_chunkStep_bound (cfg : ChunkCfg) (segments : List (List Nat))
    (hseg : ∀ s ∈ segments, s.length ≤ cfg.max_tokens) :
    ∀ st : List (List Nat) × List Nat,
      (∀ c ∈ st.1, c.length ≤ cfg.max_tokens + max cfg.overlap_tokens 1) →
      st.2.length ≤ cfg.max_tokens + max cfg.overlap_tokens 1 →
      (∀ c ∈ (segments.foldl (chunkStep cfg) st).1,
          c.length ≤ cfg.max_tokens + max cfg.overlap_tokens 1) ∧
        (segments.foldl (chunkStep cfg) st).2.length
          ≤ cfg.max_tokens + max cfg.overlap_tokens 1 := by
  induction segments with
  | nil => intro st h1 h2; exact ⟨h1, h2⟩
  | cons s rest ih =>
    intro st h1 h2
    have hs : s.length ≤ cfg.max_tokens := hseg s (List.mem_cons_self _ _)
    have hrest : ∀ t ∈ rest, t.length ≤ cfg.max_tokens :=
      fun t ht => hseg t (List.mem_cons_of_mem _ ht)
    have step := chunkStep_bound cfg st s h1 h2 hs
    simpa using ih hrest (chunkStep cfg st s) step.1 step.2

/-- C1 (counterexample): with `max_tokens = 2`, `overlap_tokens = 1` and two
one-token segments, the space token appended between joined segments makes
the single produced chunk three tokens long.  It exceeds `max_tokens`
although neither source segment is oversized, refuting the claimed token
bound with its lone-oversized-segment exception. -/
theorem chunk_bound_counterexample :
    ¬ (∀ c ∈ create_overlapping_chunks ⟨2, 1, 99⟩ [[10], [11]],
        c.length ≤ 2 ∨ ∃ s ∈ [[10], [11]], c = s ∧ 2 < s.length) := by
  decide

/-- C1 (amended): when every segment's token count is at most `max_tokens`,
every chunk produced by `create_overlapping_chunks` has token count at most
`max_tokens + max overlap_tokens 1` (the overlap seeding can add up to
`overlap_tokens` tokens and the joining space token one more). -/
theorem chunk_bound_amended (cfg : ChunkCfg) (segments : List (List Nat))
    (hseg : ∀ s ∈ segments, s.length ≤ cfg.max_tokens) :
    ∀ c ∈ create_overlapping_chunks cfg segments,
      c.length ≤ cfg.max_tokens + max cfg.overlap_tokens 1 := by
  intro c hc
  unfold create_overlapping_chunks at hc
  by_cases hemp : segments.isEmpty
  · simp [hemp] at hc
  · simp only [hemp, if_false] at hc
    have main := foldl_chunkStep_bound cfg segments hseg ([], [])
      (by intro c hc; simp at hc) (by simp)
    by_cases hfin : (segments.foldl (chunkStep cfg) ([], [])).2.isEmpty
    · simp only [hfin, if_true] at hc
      exact main.1 c hc
    · simp only [hfin, if_false] at hc
      rcases List.mem_append.mp hc with h | h
      · exact main.1 c h
      · simp only [List.mem_singleton] at h
        subst h; exact main.2

/-- C1 (witness): the amended bound evaluated on the counterexample input,
whose single chunk has three tokens, exactly the bound `2 + max 1 1`. -/
theorem chunk_bound_amended_witness :
    ([10, 99, 11] : List Nat).length ≤ 2 + max 1 1 :=
  chunk_bound_amended ⟨2, 1, 99⟩ [[10], [11]] (by decide) [10, 99, 11] (by decide)

/-! ## Overlap seeding on buffer close (C2) -/

/-- C2 (counterexample): with `max_tokens = 2` and `overlap_tokens = 5`,
closing the one-token buffer `[1]` on arrival of segment `[2, 3]` seeds the
next buffer with nothing at all — the code keeps the trailing overlap only
when the closed chunk has strictly more than `overlap_tokens` tokens, and
otherwise carries nothing — refuting the claim that all tokens of a chunk
shorter than the overlap are carried over (which would give `[1, 2, 3]`). -/
theorem overlap_seed_counterexample :
    chunkStep ⟨2, 5, 99⟩ ([], [1]) [2, 3] ≠ ([[1]], [1, 2, 3]) ∧
      chunkStep ⟨2, 5, 99⟩ ([], [1]) [2, 3] = ([[1]], [2, 3]) := by
  decide

/-- C2 (amended): whenever appending a segment's tokens to a non-empty
buffer would exceed `max_tokens`, the buffer is closed as a chunk, and the
next buffer is seeded with the trailing `overlap_tokens` tokens of the
just-closed chunk when that chunk has strictly more than `overlap_tokens`
tokens, and with nothing otherwise, before the new segment's tokens are
appended. -/
theorem overlap_seed_amended (cfg : ChunkCfg) (chunks : List (List Nat))
    (cur seg : List Nat) (hcur : ¬ cur.isEmpty)
    (hover : cfg.max_tokens < cur.length + seg.length) :
    chunkStep cfg (chunks, cur) seg =
      (chunks ++ [cur],
        (if cfg.overlap_tokens < cur.length
          then cur.drop (cur.length - cfg.overlap_tokens) else []) ++ seg) := by
  simp [chunkStep, hover, hcur]

/-- C2 (witness): the amended seeding rule evaluated at the counterexample
input. -/
theorem overlap_seed_amended_witness :
    chunkStep ⟨2, 5, 99⟩ ([], [1]) [2, 3] =
      (([] : List (List Nat)) ++ [[1]],
        (if (5 : Nat) < ([1] : List Nat).length
          then ([1] : List Nat).drop (([1] : List Nat).length - 5) else []) ++ [2, 3]) :=
  overlap_seed_amended ⟨2, 5, 99⟩ [] [1] [2, 3] (by decide) (by decide)

/-! ## Sentinel dropping and distance pairing (C4) -/

/-- C4 (counterexample): for `ids = [3, -1, 7]` the code resolves exactly
`[chunk_3, chunk_7]`, but it pairs `chunk_7` with `distances[0][1]` — the
distance the index returned for the dropped sentinel position — not with
`distances[0][2]`, the distance returned for id `7`, refuting the claimed
per-id pairing. -/
theorem distance_pairing_counterexample :
    search_index_post
        ["a".data, "b".data, "c".data, "d".data,
          "e".data, "f".data, "g".data, "h".data]
        [3, -1, 7] [1, 2, 3] ≠ [("d".data, 1), ("h".data, 3)] ∧
      search_index_post
        ["a".data, "b".data, "c".data, "d".data,
          "e".data, "f".data, "g".data, "h".data]
        [3, -1, 7] [1, 2, 3] = [("d".data, 1), ("h".data, 2)] := by
  decide

theorem zip_map_snd_take {α β : Type} :
    ∀ (l1 : List α) (l2 : List β),
      (List.zip l1 l2).map Prod.snd = l2.take l1.length
  | [], _ => by simp
  | _ :: _, [] => by simp
  | a :: l1, b :: l2 => by
    simp [List.zip_cons_cons, zip_map_snd_take l1 l2]

/-- C4 (amended): the post-processing resolves exactly the non-sentinel ids,
in the index's return order, and pairs the j-th resolved chunk with the j-th
entry of the returned distance row (so a chunk is paired with the distance
returned for its own id only when every sentinel follows all surviving ids). -/
theorem distance_pairing_amended (store : List Text) (ids : List Int)
    (distances : List ℚ)
    (hlen : (ids.filter (fun i => i != -1)).length ≤ distances.length) :
    (search_index_post store ids distances).map Prod.fst
        = get_by_ids store (ids.filter (fun i => i != -1)) ∧
      (search_index_post store ids distances).map Prod.snd
        = distances.take (ids.filter (fun i => i != -1)).length := by
  unfold search_index_post
  by_cases hemp : (ids.filter (fun i => i != -1)).isEmpty = true
  · rw [if_pos hemp]
    rw [List.isEmpty_iff] at hemp
    simp [hemp, get_by_ids]
  · rw [if_neg hemp]
    constructor
    · apply List.map_fst_zip
      simpa [get_by_ids] using hlen
    · rw [zip_map_snd_take]
      simp [get_by_ids]

/-- C4 (witness): the amended characterization evaluated on the
counterexample input. -/
theorem distance_pairing_amended_witness :
    (search_index_post
          ["a".data, "b".data, "c".data, "d".data,
            "e".data, "f".data, "g".data, "h".data]
          [3, -1, 7] [1, 2, 3]).map Prod.fst
        = get_by_ids
            ["a".data, "b".data, "c".data, "d".data,
              "e".data, "f".data, "g".data, "h".data]
            (([3, -1, 7] : List Int).filter (fun i => i != -1)) ∧
      (search_index_post
          ["a".data, "b".data, "c".data, "d".data,
            "e".data, "f".data, "g".data, "h".data]
          [3, -1, 7] [1, 2, 3]).map Prod.snd
        = ([1, 2, 3] : List ℚ).take
            (([3, -1, 7] : List Int).filter (fun i => i != -1)).length :=
  distance_pairing_amended _ _ _ (by decide)

/-! ## Structural lemmas about the fixed-point invariants -/

theorem noPair_cons {P Q : Char → Bool} {c : Char} {t : Text} :
    noPair P Q (c :: t) = true ↔
      (∀ x ∈ t.head?, (P c && Q x) = false) ∧ noPair P Q t = true := by
  cases t with
  | nil => simp [noPair]
  | cons x r => cases hc : P c <;> simp [noPair, hc]

theorem noTripleRun_cons {p : Char → Bool} {c : Char} {t : Text} :
    noTripleRun p (c :: t) = true ↔
      (∀ x ∈ t.head?, ∀ y ∈ (t.drop 1).head?, (p c && p x && p y) = false) ∧
        noTripleRun p t = true := by
  match t with
  | [] => simp [noTripleRun]
  | [x] => simp [noTripleRun]
  | x :: y :: r =>
    cases hc : p c <;> cases hx : p x <;> simp [noTripleRun, hc, hx]

theorem noQuadRun_cons {p : Char → Bool} {c : Char} {t : Text} :
    noQuadRun p (c :: t) = true ↔
      (∀ x ∈ t.head?, ∀ y ∈ (t.drop 1).head?, ∀ z ∈ (t.drop 2).head?,
        (p c && p x && p y && p z) = false) ∧ noQuadRun p t = true := by
  match t with
  | [] => simp [noQuadRun]
  | [x] => simp [noQuadRun]
  | [x, y] => simp [noQuadRun]
  | x :: y :: z :: r =>
    cases hc : p c <;> cases hx : p x <;> cases hy : p y <;>
      simp [noQuadRun, hc, hx, hy]

theorem noPair_append_right {P Q : Char → Bool} :
    ∀ {l1 l2 : Text}, noPair P Q (l1 ++ l2) = true → noPair P Q l2 = true := by
  intro l1
  induction l1 with
  | nil => intro l2 h; simpa using h
  | cons c r ih =>
    intro l2 h
    rw [List.cons_append] at h
    exact ih (noPair_cons.mp h).2

theorem noTripleRun_append_right {p : Char → Bool} :
    ∀ {l1 l2 : Text}, noTripleRun p (l1 ++ l2) = true → noTripleRun p l2 = true := by
  intro l1
  induction l1 with
  | nil => intro l2 h; simpa using h
  | cons c r ih =>
    intro l2 h
    rw [List.cons_append] at h
    exact ih (noTripleRun_cons.mp h).2

theorem noQuadRun_append_right {p : Char → Bool} :
    ∀ {l1 l2 : Text}, noQuadRun p (l1 ++ l2) = true → noQuadRun p l2 = true := by
  intro l1
  induction l1 with
  | nil => intro l2 h; simpa using h
  | cons c r ih =>
    intro l2 h
    rw [List.cons_append] at h
    exact ih (noQuadRun_cons.mp h).2

theorem noPair_append_left {P Q : Char → Bool} :
    ∀ {l1 l2 : Text}, noPair P Q (l1 ++ l2) = true → noPair P Q l1 = true := by
  intro l1
  induction l1 with
  | nil => intro l2 _; rfl
  | cons c r ih =>
    intro l2 h
    rw [List.cons_append] at h
    rcases noPair_cons.mp h with ⟨hw, ht⟩
    refine noPair_cons.mpr ⟨?_, ih ht⟩
    intro x hx
    apply hw
    cases r with
    | nil => simp at hx
    | cons y r' => simpa using hx

theorem noTripleRun_append_left {p : Char → Bool} :
    ∀ {l1 l2 : Text}, noTripleRun p (l1 ++ l2) = true → noTripleRun p l1 = true := by
  intro l1
  induction l1 with
  | nil => intro l2 _; rfl
  | cons c r ih =>
    intro l2 h
    rw [List.cons_append] at h
    rcases noTripleRun_cons.mp h with ⟨hw, ht⟩
    refine noTripleRun_cons.mpr ⟨?_, ih ht⟩
    intro x hx y hy
    apply hw
    · cases r with
      | nil => simp at hx
      | cons u r' => simpa using hx
    · match r, hx, hy with
      | u :: v :: r', hx, hy => simpa using hy

theorem noQuadRun_append_left {p : Char → Bool} :
    ∀ {l1 l2 : Text}, noQuadRun p (l1 ++ l2) = true → noQuadRun p l1 = true := by
  intro l1
  induction l1 with
  | nil => intro l2 _; rfl
  | cons c r ih =>
    intro l2 h
    rw [List.cons_append] at h
    rcases noQuadRun_cons.mp h with ⟨hw, ht⟩
    refine noQuadRun_cons.mpr ⟨?_, ih ht⟩
    intro x hx y hy z hz
    apply hw
    · cases r with
      | nil => simp at hx
      | cons u r' => simpa using hx
    · match r, hx, hy with
      | u :: v :: r', hx, hy => simpa using hy
    · match r, hx, hy, hz with
      | u :: v :: w :: r', hx, hy, hz => simpa using hz

/-! ## Head and prefix preservation by the stages -/

theorem ocrSub_head (X Y : Char → Bool) (l : Text) :
    (ocrSub X Y l).head? = l.head? := by
  induction l using ocrSub.induct X Y with
  | case1 => rfl
  | case2 => rfl
  | case3 a b r h ih => simp [ocrSub, h]
  | case4 a b r h ih => simp [ocrSub, h]

theorem head?_eq_of_take_one {l m : Text} (h : l.take 1 = m.take 1) :
    l.head? = m.head? := by
  cases l <;> cases m <;> simp_all

theorem collapseTriple_take {p : Char → Bool}
    (hu : ∀ a b, p a = true → p b = true → a = b) :
    ∀ (l : Text) (k : Nat), k ≤ 2 → (collapseTriple p l).take k = l.take k := by
  intro l
  induction l using collapseTriple.induct p with
  | case1 a b c r h ih =>
    intro k hk
    rw [collapseTriple]
    simp only [h, if_true]
    rw [ih k hk]
    simp only [Bool.and_eq_true] at h
    have hab : a = b := hu a b h.1.1 h.1.2
    have hbc : b = c := hu b c h.1.2 h.2
    match k, hk with
    | 0, _ => simp
    | 1, _ => simp [hab]
    | 2, _ => simp [hab, hbc]
  | case2 a b c r h ih =>
    intro k hk
    rw [collapseTriple, if_neg h]
    cases k with
    | zero => rfl
    | succ j =>
      simp only [List.take_succ_cons]
      rw [ih j (by omega)]
  | case3 l hne =>
    intro k hk
    rcases l with _ | ⟨a, _ | ⟨b, _ | ⟨c, r⟩⟩⟩
    · rfl
    · rfl
    · rfl
    · exact absurd rfl (hne a b c r)

theorem collapseQuad_take {p : Char → Bool}
    (hu : ∀ a b, p a = true → p b = true → a = b) :
    ∀ (l : Text) (k : Nat), k ≤ 3 → (collapseQuad p l).take k = l.take k := by
  intro l
  induction l using collapseQuad.induct p with
  | case1 a b c d r h ih =>
    intro k hk
    rw [collapseQuad]
    simp only [h, if_true]
    rw [ih k hk]
    simp only [Bool.and_eq_true] at h
    have hab : a = b := hu a b h.1.1.1 h.1.1.2
    have hbc : b = c := hu b c h.1.1.2 h.1.2
    have hcd : c = d := hu c d h.1.2 h.2
    match k, hk with
    | 0, _ => simp
    | 1, _ => simp [hab]
    | 2, _ => simp [hab, hbc]
    | 3, _ => simp [hab, hbc, hcd]
  | case2 a b c d r h ih =>
    intro k hk
    rw [collapseQuad, if_neg h]
    cases k with
    | zero => rfl
    | succ j =>
      simp only [List.take_succ_cons]
      rw [ih j (by omega)]
  | case3 l hne =>
    intro k hk
    rcases l with _ | ⟨a, _ | ⟨b, _ | ⟨c, _ | ⟨d, r⟩⟩⟩⟩
    · rfl
    · rfl
    · rfl
    · rfl
    · exact absurd rfl (hne a b c d r)

theorem collapseTriple_head {p : Char → Bool}
    (hu : ∀ a b, p a = true → p b = true → a = b) (l : Text) :
    (collapseTriple p l).head? = l.head? :=
  head?_eq_of_take_one (collapseTriple_take hu l 1 (by omega))

theorem collapseQuad_head {p : Char → Bool}
    (hu : ∀ a b, p a = true → p b = true → a = b) (l : Text) :
    (collapseQuad p l).head? = l.head? :=
  head?_eq_of_take_one (collapseQuad_take hu l 1 (by omega))

theorem dropWhile_append_exists (p : Char → Bool) (l : Text) :
    ∃ s, s ++ l.dropWhile p = l := by
  induction l with
  | nil => exact ⟨[], rfl⟩
  | cons c r ih =>
    by_cases hc : p c
    · obtain ⟨s, hs⟩ := ih
      exact ⟨c :: s, by simp [List.dropWhile, hc, hs]⟩
    · exact ⟨[], by simp [List.dropWhile, hc]⟩

theorem dropTrailing_append_exists (p : Char → Bool) (l : Text) :
    ∃ s, dropTrailing p l ++ s = l := by
  induction l with
  | nil => exact ⟨[], rfl⟩
  | cons c r ih =>
    obtain ⟨s, hs⟩ := ih
    rw [dropTrailing]
    cases hd : dropTrailing p r with
    | nil =>
      by_cases hc : p c
      · exact ⟨c :: r, by simp [hc]⟩
      · refine ⟨r, by simp [hc]⟩
    | cons y ys =>
      rw [hd] at hs
      exact ⟨s, by simpa using hs⟩

/-! ## The space-insertion relation and `ocrSub` -/

theorem spIns_head {X Y : Char → Bool} :
    ∀ {l t : Text}, SpIns X Y l t → t.head? = l.head? := by
  intro l t h
  cases h <;> rfl

theorem spIns_ocrSub (X Y : Char → Bool) : ∀ l : Text, SpIns X Y l (ocrSub X Y l) := by
  intro l
  induction l using ocrSub.induct X Y with
  | case1 => exact SpIns.nil
  | case2 c => exact SpIns.keep c SpIns.nil
  | case3 a b r h ih =>
    rw [ocrSub]
    simp only [h, if_true]
    simp only [Bool.and_eq_true] at h
    exact SpIns.ins a b h.1 h.2 (SpIns.keep b ih)
  | case4 a b r h ih =>
    rw [ocrSub]
    simp only [h, if_false]
    exact SpIns.keep a ih

theorem spIns_mem {X Y : Char → Bool} :
    ∀ {l t : Text}, SpIns X Y l t → ∀ x ∈ t, x ∈ l ∨ x = ' ' := by
  intro l t h
  induction h with
  | nil => intro x hx; simp at hx
  | keep c hst ih =>
    intro x hx
    rcases List.mem_cons.mp hx with rfl | hx
    · exact Or.inl (List.mem_cons_self _ _)
    · rcases ih x hx with h | h
      · exact Or.inl (List.mem_cons_of_mem _ h)
      · exact Or.inr h
  | ins a b hXa hYb hst ih =>
    intro x hx
    rcases List.mem_cons.mp hx with rfl | hx
    · exact Or.inl (List.mem_cons_self _ _)
    · rcases List.mem_cons.mp hx with rfl | hx
      · exact Or.inr rfl
      · rcases ih x hx with h | h
        · exact Or.inl (List.mem_cons_of_mem _ h)
        · exact Or.inr h

/-! ## Preservation of the invariants by later stages -/

theorem take_two_heads {l : Text} {u v : Char} (h : l.take 2 = [u, v]) :
    l.head? = some u ∧ (l.drop 1).head? = some v := by
  match l with
  | [] => simp at h
  | [x] => simp at h
  | x :: y :: r =>
    simp only [List.take_succ_cons, List.take_zero, List.cons.injEq] at h
    obtain ⟨rfl, rfl, -⟩ := h
    exact ⟨rfl, rfl⟩

theorem take_three_heads {l : Text} {u v w : Char} (h : l.take 3 = [u, v, w]) :
    l.head? = some u ∧ (l.drop 1).head? = some v ∧ (l.drop 2).head? = some w := by
  match l with
  | [] => simp at h
  | [x] => simp at h
  | [x, y] => simp at h
  | x :: y :: z :: r =>
    simp only [List.take_succ_cons, List.take_zero, List.cons.injEq] at h
    obtain ⟨rfl, rfl, rfl, -⟩ := h
    exact ⟨rfl, rfl, rfl⟩

theorem noPair_spIns {P Q X Y : Char → Bool}
    (hX : ∀ a, X a = true → (P a && Q ' ') = false)
    (hY : ∀ b, Y b = true → (P ' ' && Q b) = false) :
    ∀ {l t : Text}, SpIns X Y l t → noPair P Q l = true → noPair P Q t = true := by
  intro l t hst
  induction hst with
  | nil => exact id
  | keep c hst ih =>
    intro h
    rcases noPair_cons.mp h with ⟨hw, ht⟩
    refine noPair_cons.mpr ⟨?_, ih ht⟩
    intro x hx
    rw [spIns_head hst] at hx
    exact hw x hx
  | ins a b hXa hYb hst ih =>
    intro h
    rcases noPair_cons.mp h with ⟨hw1, ht1⟩
    refine noPair_cons.mpr ⟨?_, ?_⟩
    · intro x hx
      simp only [List.head?_cons, Option.mem_def, Option.some.injEq] at hx
      subst hx
      exact hX a hXa
    · refine noPair_cons.mpr ⟨?_, ih ht1⟩
      intro x hx
      rw [spIns_head hst] at hx
      simp only [List.head?_cons, Option.mem_def, Option.some.injEq] at hx
      subst hx
      exact hY b hYb

theorem noTripleRun_spIns {p X Y : Char → Bool} (hp : p ' ' = false) :
    ∀ {l t : Text}, SpIns X Y l t → noTripleRun p l = true → noTripleRun p t = true := by
  intro l t hst
  induction hst with
  | nil => exact id
  | keep c hst ih =>
    intro h
    rcases noTripleRun_cons.mp h with ⟨hw, ht⟩
    refine noTripleRun_cons.mpr ⟨?_, ih ht⟩
    intro x hx y hy
    cases hst with
    | nil => simp at hx
    | keep c2 hst2 =>
      simp only [List.head?_cons, Option.mem_def, Option.some.injEq] at hx
      subst hx
      simp only [List.drop_succ_cons, List.drop_zero] at hy
      rw [spIns_head hst2] at hy
      exact hw _ (by simp) _ (by simpa using hy)
    | ins a2 b2 hX2 hY2 hst2 =>
      simp only [List.head?_cons, Option.mem_def, Option.some.injEq] at hx
      subst hx
      simp only [List.drop_succ_cons, List.drop_zero, List.head?_cons,
        Option.mem_def, Option.some.injEq] at hy
      subst hy
      simp [hp]
  | ins a b hXa hYb hst ih =>
    intro h
    rcases noTripleRun_cons.mp h with ⟨hw1, ht1⟩
    refine noTripleRun_cons.mpr ⟨?_, ?_⟩
    · intro x hx y hy
      simp only [List.head?_cons, Option.mem_def, Option.some.injEq] at hx
      subst hx
      simp [hp]
    · refine noTripleRun_cons.mpr ⟨?_, ih ht1⟩
      intro x hx y hy
      simp [hp]

theorem spIns_noTab {X Y : Char → Bool} {l t : Text}
    (hst : SpIns X Y l t) (h : ∀ x ∈ l, x ≠ '\t') : ∀ x ∈ t, x ≠ '\t' := by
  intro x hx
  rcases spIns_mem hst x hx with hm | rfl
  · exact h x hm
  · decide

theorem noPair_collapseTriple {P Q p : Char → Bool}
    (hu : ∀ a b, p a = true → p b = true → a = b) :
    ∀ l, noPair P Q l = true → noPair P Q (collapseTriple p l) = true := by
  intro l
  induction l using collapseTriple.induct p with
  | case1 a b c r h ih =>
    intro hl
    rw [collapseTriple, if_pos h]
    exact ih (noPair_cons.mp hl).2
  | case2 a b c r h ih =>
    intro hl
    rw [collapseTriple, if_neg h]
    rcases noPair_cons.mp hl with ⟨hw, ht⟩
    refine noPair_cons.mpr ⟨?_, ih ht⟩
    intro x hx
    rw [collapseTriple_head hu] at hx
    exact hw x hx
  | case3 l hne =>
    intro hl
    rcases l with _ | ⟨a, _ | ⟨b, _ | ⟨c, r⟩⟩⟩
    · exact hl
    · exact hl
    · exact hl
    · exact absurd rfl (hne a b c r)

theorem noPair_collapseQuad {P Q p : Char → Bool}
    (hu : ∀ a b, p a = true → p b = true → a = b) :
    ∀ l, noPair P Q l = true → noPair P Q (collapseQuad p l) = true := by
  intro l
  induction l using collapseQuad.induct p with
  | case1 a b c d r h ih =>
    intro hl
    rw [collapseQuad, if_pos h]
    exact ih (noPair_cons.mp hl).2
  | case2 a b c d r h ih =>
    intro hl
    rw [collapseQuad, if_neg h]
    rcases noPair_cons.mp hl with ⟨hw, ht⟩
    refine noPair_cons.mpr ⟨?_, ih ht⟩
    intro x hx
    rw [collapseQuad_head hu] at hx
    exact hw x hx
  | case3 l hne =>
    intro hl
    rcases l with _ | ⟨a, _ | ⟨b, _ | ⟨c, _ | ⟨d, r⟩⟩⟩⟩
    · exact hl
    · exact hl
    · exact hl
    · exact hl
    · exact absurd rfl (hne a b c d r)

theorem noTripleRun_collapseQuad {q p : Char → Bool}
    (hu : ∀ a b, p a = true → p b = true → a = b) :
    ∀ l, noTripleRun q l = true → noTripleRun q (collapseQuad p l) = true := by
  intro l
  induction l using collapseQuad.induct p with
  | case1 a b c d r h ih =>
    intro hl
    rw [collapseQuad, if_pos h]
    exact ih (noTripleRun_cons.mp hl).2
  | case2 a b c d r h ih =>
    intro hl
    rw [collapseQuad, if_neg h]
    rcases noTripleRun_cons.mp hl with ⟨hw, ht⟩
    refine noTripleRun_cons.mpr ⟨?_, ih ht⟩
    intro x hx y hy
    have h2 : (collapseQuad p (b :: c :: d :: r)).take 2 = [b, c] := by
      rw [collapseQuad_take hu _ 2 (by omega)]
      rfl
    obtain ⟨e1, e2⟩ := take_two_heads h2
    rw [e1] at hx
    rw [e2] at hy
    simp only [Option.mem_def, Option.some.injEq] at hx hy
    subst hx
    subst hy
    exact hw _ (by simp) _ (by simp)
  | case3 l hne =>
    intro hl
    rcases l with _ | ⟨a, _ | ⟨b, _ | ⟨c, _ | ⟨d, r⟩⟩⟩⟩
    · exact hl
    · exact hl
    · exact hl
    · exact hl
    · exact absurd rfl (hne a b c d r)

theorem noQuadRun_collapseQuad_other {q p : Char → Bool}
    (hu : ∀ a b, p a = true → p b = true → a = b) :
    ∀ l, noQuadRun q l = true → noQuadRun q (collapseQuad p l) = true := by
  intro l
  induction l using collapseQuad.induct p with
  | case1 a b c d r h ih =>
    intro hl
    rw [collapseQuad, if_pos h]
    exact ih (noQuadRun_cons.mp hl).2
  | case2 a b c d r h ih =>
    intro hl
    rw [collapseQuad, if_neg h]
    rcases noQuadRun_cons.mp hl with ⟨hw, ht⟩
    refine noQuadRun_cons.mpr ⟨?_, ih ht⟩
    intro x hx y hy z hz
    have h3 : (collapseQuad p (b :: c :: d :: r)).take 3 = [b, c, d] := by
      rw [collapseQuad_take hu _ 3 (by omega)]
      rfl
    obtain ⟨e1, e2, e3⟩ := take_three_heads h3
    rw [e1] at hx
    rw [e2] at hy
    rw [e3] at hz
    simp only [Option.mem_def, Option.some.injEq] at hx hy hz
    subst hx
    subst hy
    subst hz
    exact hw _ (by simp) _ (by simp) _ (by simp)
  | case3 l hne =>
    intro hl
    rcases l with _ | ⟨a, _ | ⟨b, _ | ⟨c, _ | ⟨d, r⟩⟩⟩⟩
    · exact hl
    · exact hl
    · exact hl
    · exact hl
    · exact absurd rfl (hne a b c d r)

theorem collapseTriple_mem {p : Char → Bool} :
    ∀ l : Text, ∀ x ∈ collapseTriple p l, x ∈ l := by
  intro l
  induction l using collapseTriple.induct p with
  | case1 a b c r h ih =>
    intro x hx
    rw [collapseTriple, if_pos h] at hx
    exact List.mem_cons_of_mem _ (ih x hx)
  | case2 a b c r h ih =>
    intro x hx
    rw [collapseTriple, if_neg h] at hx
    rcases List.mem_cons.mp hx with rfl | hx
    · exact List.mem_cons_self _ _
    · exact List.mem_cons_of_mem _ (ih x hx)
  | case3 l hne =>
    intro x hx
    rcases l with _ | ⟨a, _ | ⟨b, _ | ⟨c, r⟩⟩⟩
    · exact hx
    · exact hx
    · exact hx
    · exact absurd rfl (hne a b c r)

theorem collapseQuad_mem {p : Char → Bool} :
    ∀ l : Text, ∀ x ∈ collapseQuad p l, x ∈ l := by
  intro l
  induction l using collapseQuad.induct p with
  | case1 a b c d r h ih =>
    intro x hx
    rw [collapseQuad, if_pos h] at hx
    exact List.mem_cons_of_mem _ (ih x hx)
  | case2 a b c d r h ih =>
    intro x hx
    rw [collapseQuad, if_neg h] at hx
    rcases List.mem_cons.mp hx with rfl | hx
    · exact List.mem_cons_self _ _
    · exact List.mem_cons_of_mem _ (ih x hx)
  | case3 l hne =>
    intro x hx
    rcases l with _ | ⟨a, _ | ⟨b, _ | ⟨c, _ | ⟨d, r⟩⟩⟩⟩
    · exact hx
    · exact hx
    · exact hx
    · exact hx
    · exact absurd rfl (hne a b c d r)

/-! ## Soundness: each stage establishes its own invariant -/

theorem noPair_ocrSub_self {X Y : Char → Bool}
    (hd : ∀ b, Y b = true → X b = false)
    (hX' : X ' ' = false) (hY' : Y ' ' = false) :
    ∀ l, noPair X Y (ocrSub X Y l) = true := by
  intro l
  induction l using ocrSub.induct X Y with
  | case1 => rfl
  | case2 c => rfl
  | case3 a b r h ih =>
    rw [ocrSub, if_pos h]
    simp only [Bool.and_eq_true] at h
    refine noPair_cons.mpr ⟨?_, ?_⟩
    · intro x hx
      simp only [List.head?_cons, Option.mem_def, Option.some.injEq] at hx
      subst hx
      simp [hY']
    · refine noPair_cons.mpr ⟨?_, ?_⟩
      · intro x hx
        simp only [List.head?_cons, Option.mem_def, Option.some.injEq] at hx
        subst hx
        simp [hX']
      · refine noPair_cons.mpr ⟨?_, ih⟩
        intro x hx
        simp [hd b h.2]
  | case4 a b r h ih =>
    rw [ocrSub, if_neg h]
    refine noPair_cons.mpr ⟨?_, ih⟩
    intro x hx
    rw [ocrSub_head] at hx
    simp only [List.head?_cons, Option.mem_def, Option.some.injEq] at hx
    subst hx
    exact Bool.not_eq_true _ ▸ h

theorem noTripleRun_collapseTriple_self {p : Char → Bool}
    (hu : ∀ a b, p a = true → p b = true → a = b) :
    ∀ l, noTripleRun p (collapseTriple p l) = true := by
  intro l
  induction l using collapseTriple.induct p with
  | case1 a b c r h ih => rw [collapseTriple, if_pos h]; exact ih
  | case2 a b c r h ih =>
    rw [collapseTriple, if_neg h]
    refine noTripleRun_cons.mpr ⟨?_, ih⟩
    intro x hx y hy
    have h2 : (collapseTriple p (b :: c :: r)).take 2 = [b, c] := by
      rw [collapseTriple_take hu _ 2 (by omega)]
      rfl
    obtain ⟨e1, e2⟩ := take_two_heads h2
    rw [e1] at hx
    rw [e2] at hy
    simp only [Option.mem_def, Option.some.injEq] at hx hy
    subst hx
    subst hy
    exact Bool.not_eq_true _ ▸ h
  | case3 l hne =>
    rcases l with _ | ⟨a, _ | ⟨b, _ | ⟨c, r⟩⟩⟩
    · rfl
    · rfl
    · rfl
    · exact absurd rfl (hne a b c r)

theorem noQuadRun_collapseQuad_self {p : Char → Bool}
    (hu : ∀ a b, p a = true → p b = true → a = b) :
    ∀ l, noQuadRun p (collapseQuad p l) = true := by
  intro l
  induction l using collapseQuad.induct p with
  | case1 a b c d r h ih => rw [collapseQuad, if_pos h]; exact ih
  | case2 a b c d r h ih =>
    rw [collapseQuad, if_neg h]
    refine noQuadRun_cons.mpr ⟨?_, ih⟩
    intro x hx y hy z hz
    have h3 : (collapseQuad p (b :: c :: d :: r)).take 3 = [b, c, d] := by
      rw [collapseQuad_take hu _ 3 (by omega)]
      rfl
    obtain ⟨e1, e2, e3⟩ := take_three_heads h3
    rw [e1] at hx
    rw [e2] at hy
    rw [e3] at hz
    simp only [Option.mem_def, Option.some.injEq] at hx hy hz
    subst hx
    subst hy
    subst hz
    exact Bool.not_eq_true _ ▸ h
  | case3 l hne =>
    rcases l with _ | ⟨a, _ | ⟨b, _ | ⟨c, _ | ⟨d, r⟩⟩⟩⟩
    · rfl
    · rfl
    · rfl
    · rfl
    · exact absurd rfl (hne a b c d r)

theorem collapseSpaceTab_head_of_not {b : Char} (r : Text)
    (hb : isSpaceTab b = false) : (collapseSpaceTab (b :: r)).head? = some b := by
  cases r with
  | nil => simp [collapseSpaceTab, hb]
  | cons y r' => rw [collapseSpaceTab]; simp [hb]

theorem collapseSpaceTab_noTab : ∀ l, ∀ x ∈ collapseSpaceTab l, x ≠ '\t' := by
  intro l
  induction l using collapseSpaceTab.induct with
  | case1 => intro x hx; simp [collapseSpaceTab] at hx
  | case2 c hc =>
    intro x hx
    rw [collapseSpaceTab, if_pos hc] at hx
    simp only [List.mem_singleton] at hx
    subst hx
    decide
  | case3 c hc =>
    intro x hx
    rw [collapseSpaceTab, if_neg hc] at hx
    simp only [List.mem_singleton] at hx
    subst hx
    intro he
    exact hc (by rw [he]; decide)
  | case4 a b r ha hb ih =>
    intro x hx
    rw [collapseSpaceTab, if_pos ha, if_pos hb] at hx
    exact ih x hx
  | case5 a b r ha hb ih =>
    intro x hx
    rw [collapseSpaceTab, if_pos ha, if_neg hb] at hx
    rcases List.mem_cons.mp hx with rfl | hx
    · decide
    · exact ih x hx
  | case6 a b r ha ih =>
    intro x hx
    rw [collapseSpaceTab, if_neg ha] at hx
    rcases List.mem_cons.mp hx with rfl | hx
    · intro he
      exact ha (by rw [he]; decide)
    · exact ih x hx

theorem collapseSpaceTab_noPair :
    ∀ l, noPair isSpaceTab isSpaceTab (collapseSpaceTab l) = true := by
  intro l
  induction l using collapseSpaceTab.induct with
  | case1 => rfl
  | case2 c hc => rw [collapseSpaceTab, if_pos hc]; rfl
  | case3 c hc => rw [collapseSpaceTab, if_neg hc]; rfl
  | case4 a b r ha hb ih =>
    rw [collapseSpaceTab, if_pos ha, if_pos hb]
    exact ih
  | case5 a b r ha hb ih =>
    rw [collapseSpaceTab, if_pos ha, if_neg hb]
    refine noPair_cons.mpr ⟨?_, ih⟩
    intro x hx
    rw [collapseSpaceTab_head_of_not r (Bool.not_eq_true _ ▸ hb)] at hx
    simp only [Option.mem_def, Option.some.injEq] at hx
    subst hx
    simp [Bool.not_eq_true _ ▸ hb]
  | case6 a b r ha ih =>
    rw [collapseSpaceTab, if_neg ha]
    refine noPair_cons.mpr ⟨?_, ih⟩
    intro x hx
    simp [Bool.not_eq_true _ ▸ ha]

/-! ## Identity of each stage on its fixed points -/

theorem collapseSpaceTab_eq_self :
    ∀ l, (∀ x ∈ l, x ≠ '\t') → noPair isSpaceTab isSpaceTab l = true →
      collapseSpaceTab l = l := by
  intro l
  induction l using collapseSpaceTab.induct with
  | case1 => intro _ _; rfl
  | case2 c hc =>
    intro h1 _
    rw [collapseSpaceTab, if_pos hc]
    have : c = ' ' := by
      have hne := h1 c (by simp)
      revert hc hne
      simp only [isSpaceTab, Bool.or_eq_true, decide_eq_true_eq]
      rintro (rfl | rfl) hne
      · rfl
      · exact absurd rfl hne
    rw [this]
  | case3 c hc =>
    intro _ _
    rw [collapseSpaceTab, if_neg hc]
  | case4 a b r ha hb ih =>
    intro h1 h2
    exfalso
    rcases noPair_cons.mp h2 with ⟨hw, -⟩
    have := hw b (by simp)
    rw [ha, hb] at this
    simp at this
  | case5 a b r ha hb ih =>
    intro h1 h2
    rw [collapseSpaceTab, if_pos ha, if_neg hb]
    have haa : a = ' ' := by
      have hne := h1 a (by simp)
      revert ha hne
      simp only [isSpaceTab, Bool.or_eq_true, decide_eq_true_eq]
      rintro (rfl | rfl) hne
      · rfl
      · exact absurd rfl hne
    rw [haa, ih (fun x hx => h1 x (List.mem_cons_of_mem _ hx)) (noPair_cons.mp h2).2]
  | case6 a b r ha ih =>
    intro h1 h2
    rw [collapseSpaceTab, if_neg ha,
      ih (fun x hx => h1 x (List.mem_cons_of_mem _ hx)) (noPair_cons.mp h2).2]

theorem collapseTriple_eq_self {p : Char → Bool} :
    ∀ l, noTripleRun p l = true → collapseTriple p l = l := by
  intro l
  induction l using collapseTriple.induct p with
  | case1 a b c r h ih =>
    intro hl
    exfalso
    rcases noTripleRun_cons.mp hl with ⟨hw, -⟩
    have := hw b (by simp) c (by simp)
    rw [this] at h
    simp at h
  | case2 a b c r h ih =>
    intro hl
    rw [collapseTriple, if_neg h, ih (noTripleRun_cons.mp hl).2]
  | case3 l hne =>
    intro hl
    rcases l with _ | ⟨a, _ | ⟨b, _ | ⟨c, r⟩⟩⟩
    · rfl
    · rfl
    · rfl
    · exact absurd rfl (hne a b c r)

theorem collapseQuad_eq_self {p : Char → Bool} :
    ∀ l, noQuadRun p l = true → collapseQuad p l = l := by
  intro l
  induction l using collapseQuad.induct p with
  | case1 a b c d r h ih =>
    intro hl
    exfalso
    rcases noQuadRun_cons.mp hl with ⟨hw, -⟩
    have := hw b (by simp) c (by simp) d (by simp)
    rw [this] at h
    simp at h
  | case2 a b c d r h ih =>
    intro hl
    rw [collapseQuad, if_neg h, ih (noQuadRun_cons.mp hl).2]
  | case3 l hne =>
    intro hl
    rcases l with _ | ⟨a, _ | ⟨b, _ | ⟨c, _ | ⟨d, r⟩⟩⟩⟩
    · rfl
    · rfl
    · rfl
    · rfl
    · exact absurd rfl (hne a b c d r)

theorem ocrSub_eq_self {X Y : Char → Bool} :
    ∀ l, noPair X Y l = true → ocrSub X Y l = l := by
  intro l
  induction l using ocrSub.induct X Y with
  | case1 => intro _; rfl
  | case2 c => intro _; rfl
  | case3 a b r h ih =>
    intro hl
    exfalso
    rcases noPair_cons.mp hl with ⟨hw, -⟩
    have := hw b (by simp)
    rw [this] at h
    simp at h
  | case4 a b r h ih =>
    intro hl
    rw [ocrSub, if_neg h, ih (noPair_cons.mp hl).2]

/-! ## Strip: soundness, identity and preservation -/

theorem head_dropWhile (p : Char → Bool) (l : Text) :
    ∀ x ∈ (l.dropWhile p).head?, p x = false := by
  induction l with
  | nil => simp [List.dropWhile]
  | cons c r ih =>
    by_cases hc : p c = true
    · simpa [List.dropWhile_cons, hc] using ih
    · intro x hx
      rw [List.dropWhile_cons, if_neg (by simp [hc])] at hx
      simp only [List.head?_cons, Option.mem_def, Option.some.injEq] at hx
      subst hx
      exact Bool.not_eq_true _ ▸ hc

theorem dropTrailing_getLast (p : Char → Bool) :
    ∀ l : Text, ∀ x ∈ (dropTrailing p l).getLast?, p x = false := by
  intro l
  induction l with
  | nil => simp [dropTrailing]
  | cons c r ih =>
    intro x hx
    rw [dropTrailing] at hx
    cases hd : dropTrailing p r with
    | nil =>
      rw [hd] at hx
      by_cases hc : p c = true
      · rw [if_pos hc] at hx
        simp at hx
      · rw [if_neg hc] at hx
        simp only [List.getLast?_singleton, Option.mem_def, Option.some.injEq] at hx
        subst hx
        exact Bool.not_eq_true _ ▸ hc
    | cons y ys =>
      rw [hd, List.getLast?_cons_cons] at hx
      exact ih x (by rw [hd]; exact hx)

theorem dropTrailing_eq_self (p : Char → Bool) :
    ∀ l : Text, (∀ x ∈ l.getLast?, p x = false) → dropTrailing p l = l := by
  intro l
  induction l with
  | nil => intro _; rfl
  | cons c r ih =>
    intro h
    rw [dropTrailing]
    cases r with
    | nil =>
      have hc : p c = false := h c (by simp)
      simp [dropTrailing, hc]
    | cons y ys =>
      have hr : dropTrailing p (y :: ys) = y :: ys := by
        refine ih ?_
        intro x hx
        apply h
        rw [List.getLast?_cons_cons]
        exact hx
      rw [hr]

theorem pyStrip_noEdgeWs (l : Text) : noEdgeWs (pyStrip l) = true := by
  have hhead : ∀ x ∈ (pyStrip l).head?, isPyWs x = false := by
    intro x hx
    cases hp : pyStrip l with
    | nil => rw [hp] at hx; simp at hx
    | cons y ys =>
      rw [hp] at hx
      simp only [List.head?_cons, Option.mem_def, Option.some.injEq] at hx
      subst hx
      apply head_dropWhile isPyWs l
      obtain ⟨s, hs⟩ := dropTrailing_append_exists isPyWs (l.dropWhile isPyWs)
      have hp' : dropTrailing isPyWs (l.dropWhile isPyWs) = y :: ys := hp
      rw [hp'] at hs
      rw [← hs]
      simp
  have hlast : ∀ x ∈ (pyStrip l).getLast?, isPyWs x = false :=
    fun x hx => dropTrailing_getLast isPyWs (l.dropWhile isPyWs) x hx
  unfold noEdgeWs
  rw [Bool.and_eq_true]
  constructor
  · cases hp : (pyStrip l).head? with
    | none => rfl
    | some c => simpa using hhead c (by rw [hp]; rfl)
  · cases hp : (pyStrip l).getLast? with
    | none => rfl
    | some c => simpa using hlast c (by rw [hp]; rfl)

theorem pyStrip_eq_self {l : Text} (h : noEdgeWs l = true) : pyStrip l = l := by
  unfold noEdgeWs at h
  rw [Bool.and_eq_true] at h
  obtain ⟨h1, h2⟩ := h
  have hdw : l.dropWhile isPyWs = l := by
    cases l with
    | nil => rfl
    | cons c r =>
      have hc : isPyWs c = false := by
        simp only [List.head?_cons] at h1
        simpa using h1
      rw [List.dropWhile_cons, if_neg (by simp [hc])]
  unfold pyStrip
  rw [hdw]
  apply dropTrailing_eq_self
  intro x hx
  rw [Option.mem_def] at hx
  rw [hx] at h2
  simpa using h2

theorem noPair_pyStrip {P Q : Char → Bool} {l : Text}
    (h : noPair P Q l = true) : noPair P Q (pyStrip l) = true := by
  obtain ⟨s, hs⟩ := dropWhile_append_exists isPyWs l
  have h0 : noPair P Q (s ++ l.dropWhile isPyWs) = true := by rw [hs]; exact h
  have h1 : noPair P Q (l.dropWhile isPyWs) = true := noPair_append_right h0
  obtain ⟨s2, hs2⟩ := dropTrailing_append_exists isPyWs (l.dropWhile isPyWs)
  have h2 : noPair P Q (dropTrailing isPyWs (l.dropWhile isPyWs) ++ s2) = true := by
    rw [hs2]; exact h1
  show noPair P Q (dropTrailing isPyWs (l.dropWhile isPyWs)) = true
  exact noPair_append_left h2

theorem noTripleRun_pyStrip {p : Char → Bool} {l : Text}
    (h : noTripleRun p l = true) : noTripleRun p (pyStrip l) = true := by
  obtain ⟨s, hs⟩ := dropWhile_append_exists isPyWs l
  have h0 : noTripleRun p (s ++ l.dropWhile isPyWs) = true := by rw [hs]; exact h
  have h1 : noTripleRun p (l.dropWhile isPyWs) = true := noTripleRun_append_right h0
  obtain ⟨s2, hs2⟩ := dropTrailing_append_exists isPyWs (l.dropWhile isPyWs)
  have h2 : noTripleRun p (dropTrailing isPyWs (l.dropWhile isPyWs) ++ s2) = true := by
    rw [hs2]; exact h1
  show noTripleRun p (dropTrailing isPyWs (l.dropWhile isPyWs)) = true
  exact noTripleRun_append_left h2

theorem noQuadRun_pyStrip {p : Char → Bool} {l : Text}
    (h : noQuadRun p l = true) : noQuadRun p (pyStrip l) = true := by
  obtain ⟨s, hs⟩ := dropWhile_append_exists isPyWs l
  have h0 : noQuadRun p (s ++ l.dropWhile isPyWs) = true := by rw [hs]; exact h
  have h1 : noQuadRun p (l.dropWhile isPyWs) = true := noQuadRun_append_right h0
  obtain ⟨s2, hs2⟩ := dropTrailing_append_exists isPyWs (l.dropWhile isPyWs)
  have h2 : noQuadRun p (dropTrailing isPyWs (l.dropWhile isPyWs) ++ s2) = true := by
    rw [hs2]; exact h1
  show noQuadRun p (dropTrailing isPyWs (l.dropWhile isPyWs)) = true
  exact noQuadRun_append_left h2

theorem pyStrip_mem {l : Text} : ∀ x ∈ pyStrip l, x ∈ l := by
  intro x hx
  obtain ⟨s, hs⟩ := dropWhile_append_exists isPyWs l
  obtain ⟨s2, hs2⟩ := dropTrailing_append_exists isPyWs (l.dropWhile isPyWs)
  rw [← hs, ← hs2]
  simp only [List.mem_append]
  exact Or.inr (Or.inl hx)

/-! ## Character class facts -/

theorem upper_not_lower {b : Char} (hb : isAsciiUpper b = true) :
    isAsciiLower b = false := by
  simp only [isAsciiUpper, Bool.and_eq_true, decide_eq_true_eq] at hb
  have h1 : ¬ ('a' ≤ b) := fun hle => absurd (le_trans hle hb.2) (by decide)
  simp only [isAsciiLower, Bool.and_eq_false_iff, decide_eq_false_iff_not]
  exact Or.inl h1

theorem upper_not_dot {b : Char} (hb : isAsciiUpper b = true) :
    isDot b = false := by
  simp only [isAsciiUpper, Bool.and_eq_true, decide_eq_true_eq] at hb
  have h1 : b ≠ '.' := fun he => absurd hb.1 (by rw [he]; decide)
  simp [isDot, h1]

theorem digit_not_lower {b : Char} (hb : isAsciiDigit b = true) :
    isAsciiLower b = false := by
  simp only [isAsciiDigit, Bool.and_eq_true, decide_eq_true_eq] at hb
  have h1 : ¬ ('a' ≤ b) := fun hle => absurd (le_trans hle hb.2) (by decide)
  simp only [isAsciiLower, Bool.and_eq_false_iff, decide_eq_false_iff_not]
  exact Or.inl h1

theorem lower_not_digit {b : Char} (hb : isAsciiLower b = true) :
    isAsciiDigit b = false := by
  simp only [isAsciiLower, Bool.and_eq_true, decide_eq_true_eq] at hb
  have h1 : ¬ ('0' ≤ b) ∨ ¬ (b ≤ '9') := Or.inr (fun hle => absurd (le_trans hb.1 hle) (by decide))
  simp only [isAsciiDigit, Bool.and_eq_false_iff, decide_eq_false_iff_not]
  exact h1

theorem lower_not_spaceTab {c : Char} (h : isAsciiLower c = true) :
    isSpaceTab c = false := by
  simp only [isAsciiLower, Bool.and_eq_true, decide_eq_true_eq] at h
  have h1 : c ≠ ' ' := fun he => absurd h.1 (by rw [he]; decide)
  have h2 : c ≠ '\t' := fun he => absurd h.1 (by rw [he]; decide)
  simp [isSpaceTab, h1, h2]

theorem upper_not_spaceTab {c : Char} (h : isAsciiUpper c = true) :
    isSpaceTab c = false := by
  simp only [isAsciiUpper, Bool.and_eq_true, decide_eq_true_eq] at h
  have h1 : c ≠ ' ' := fun he => absurd h.1 (by rw [he]; decide)
  have h2 : c ≠ '\t' := fun he => absurd h.1 (by rw [he]; decide)
  simp [isSpaceTab, h1, h2]

theorem digit_not_spaceTab {c : Char} (h : isAsciiDigit c = true) :
    isSpaceTab c = false := by
  simp only [isAsciiDigit, Bool.and_eq_true, decide_eq_true_eq] at h
  have h1 : c ≠ ' ' := fun he => absurd h.1 (by rw [he]; decide)
  have h2 : c ≠ '\t' := fun he => absurd h.1 (by rw [he]; decide)
  simp [isSpaceTab, h1, h2]

theorem dot_not_spaceTab {c : Char} (h : isDot c = true) :
    isSpaceTab c = false := by
  simp only [isDot, decide_eq_true_eq] at h
  subst h
  decide

theorem uniq_isNl : ∀ a b, isNl a = true → isNl b = true → a = b := by
  intro a b ha hb
  simp only [isNl, decide_eq_true_eq] at ha hb
  rw [ha, hb]

theorem uniq_isDot : ∀ a b, isDot a = true → isDot b = true → a = b := by
  intro a b ha hb
  simp only [isDot, decide_eq_true_eq] at ha hb
  rw [ha, hb]

theorem uniq_isDash : ∀ a b, isDash a = true → isDash b = true → a = b := by
  intro a b ha hb
  simp only [isDash, decide_eq_true_eq] at ha hb
  rw [ha, hb]

theorem noPair_word_spIns {P Q X Y : Char → Bool}
    (hP' : P ' ' = false) (hQ' : Q ' ' = false) {l t : Text}
    (hst : SpIns X Y l t) (h : noPair P Q l = true) : noPair P Q t = true :=
  noPair_spIns (fun _ _ => by rw [hQ']; simp) (fun _ _ => by rw [hP']; simp) hst h

theorem ocrSub_noTab {X Y : Char → Bool} {l : Text}
    (h : ∀ x ∈ l, x ≠ '\t') : ∀ x ∈ ocrSub X Y l, x ≠ '\t' :=
  spIns_noTab (spIns_ocrSub X Y l) h

/-! ## Invariants of the full normalization pipeline's output -/

theorem normalizeText_noTab (t : Text) : ∀ x ∈ normalizeText t, x ≠ '\t' := by
  have h0 := collapseSpaceTab_noTab t
  have h1 : ∀ x ∈ collapseTriple isNl (collapseSpaceTab t), x ≠ '\t' :=
    fun x hx => h0 x (collapseTriple_mem _ x hx)
  have h2 : ∀ x ∈ pyStrip (collapseTriple isNl (collapseSpaceTab t)), x ≠ '\t' :=
    fun x hx => h1 x (pyStrip_mem x hx)
  have h3 := ocrSub_noTab (X := isAsciiLower) (Y := isAsciiUpper) h2
  have h4 := ocrSub_noTab (X := isDot) (Y := isAsciiUpper) h3
  have h5 := ocrSub_noTab (X := isAsciiLower) (Y := isAsciiDigit) h4
  have h6 := ocrSub_noTab (X := isAsciiDigit) (Y := isAsciiLower) h5
  have h7 : ∀ x ∈ collapseQuad isDot (ocrSub isAsciiDigit isAsciiLower
      (ocrSub isAsciiLower isAsciiDigit (ocrSub isDot isAsciiUpper
        (ocrSub isAsciiLower isAsciiUpper
          (pyStrip (collapseTriple isNl (collapseSpaceTab t))))))), x ≠ '\t' :=
    fun x hx => h6 x (collapseQuad_mem _ x hx)
  have h8 : ∀ x ∈ collapseQuad isDash (collapseQuad isDot
      (ocrSub isAsciiDigit isAsciiLower (ocrSub isAsciiLower isAsciiDigit
        (ocrSub isDot isAsciiUpper (ocrSub isAsciiLower isAsciiUpper
          (pyStrip (collapseTriple isNl (collapseSpaceTab t)))))))), x ≠ '\t' :=
    fun x hx => h7 x (collapseQuad_mem _ x hx)
  exact fun x hx => h8 x (pyStrip_mem x hx)

theorem normalizeText_noPairSp (t : Text) :
    noPair isSpaceTab isSpaceTab (normalizeText t) = true := by
  have h0 := collapseSpaceTab_noPair t
  have h1 := noPair_collapseTriple uniq_isNl _ h0
  have h2 := noPair_pyStrip h1
  have h3 := noPair_spIns (P := isSpaceTab) (Q := isSpaceTab)
    (fun a ha => by rw [lower_not_spaceTab ha]; simp)
    (fun b hb => by rw [upper_not_spaceTab hb]; simp)
    (spIns_ocrSub isAsciiLower isAsciiUpper _) h2
  have h4 := noPair_spIns (P := isSpaceTab) (Q := isSpaceTab)
    (fun a ha => by rw [dot_not_spaceTab ha]; simp)
    (fun b hb => by rw [upper_not_spaceTab hb]; simp)
    (spIns_ocrSub isDot isAsciiUpper _) h3
  have h5 := noPair_spIns (P := isSpaceTab) (Q := isSpaceTab)
    (fun a ha => by rw [lower_not_spaceTab ha]; simp)
    (fun b hb => by rw [digit_not_spaceTab hb]; simp)
    (spIns_ocrSub isAsciiLower isAsciiDigit _) h4
  have h6 := noPair_spIns (P := isSpaceTab) (Q := isSpaceTab)
    (fun a ha => by rw [digit_not_spaceTab ha]; simp)
    (fun b hb => by rw [lower_not_spaceTab hb]; simp)
    (spIns_ocrSub isAsciiDigit isAsciiLower _) h5
  have h7 := noPair_collapseQuad uniq_isDot _ h6
  have h8 := noPair_collapseQuad uniq_isDash _ h7
  exact noPair_pyStrip h8

theorem normalizeText_noTripleNl (t : Text) :
    noTripleRun isNl (normalizeText t) = true := by
  have h1 := noTripleRun_collapseTriple_self uniq_isNl (collapseSpaceTab t)
  have h2 := noTripleRun_pyStrip h1
  have hnl : isNl ' ' = false := by decide
  have h3 := noTripleRun_spIns hnl (spIns_ocrSub isAsciiLower isAsciiUpper _) h2
  have h4 := noTripleRun_spIns hnl (spIns_ocrSub isDot isAsciiUpper _) h3
  have h5 := noTripleRun_spIns hnl (spIns_ocrSub isAsciiLower isAsciiDigit _) h4
  have h6 := noTripleRun_spIns hnl (spIns_ocrSub isAsciiDigit isAsciiLower _) h5
  have h7 := noTripleRun_collapseQuad uniq_isDot _ h6
  have h8 := noTripleRun_collapseQuad uniq_isDash _ h7
  exact noTripleRun_pyStrip h8

theorem normalizeText_noPairLU (t : Text) :
    noPair isAsciiLower isAsciiUpper (normalizeText t) = true := by
  have h3 := noPair_ocrSub_self (X := isAsciiLower) (Y := isAsciiUpper) (fun _ hb => upper_not_lower hb) (by decide) (by decide)
    (pyStrip (collapseTriple isNl (collapseSpaceTab t)))
  have h4 := noPair_word_spIns (by decide) (by decide)
    (spIns_ocrSub isDot isAsciiUpper _) h3
  have h5 := noPair_word_spIns (by decide) (by decide)
    (spIns_ocrSub isAsciiLower isAsciiDigit _) h4
  have h6 := noPair_word_spIns (by decide) (by decide)
    (spIns_ocrSub isAsciiDigit isAsciiLower _) h5
  have h7 := noPair_collapseQuad uniq_isDot _ h6
  have h8 := noPair_collapseQuad uniq_isDash _ h7
  exact noPair_pyStrip h8

theorem normalizeText_noPairDotU (t : Text) :
    noPair isDot isAsciiUpper (normalizeText t) = true := by
  have h4 := noPair_ocrSub_self (X := isDot) (Y := isAsciiUpper) (fun _ hb => upper_not_dot hb) (by decide) (by decide)
    (ocrSub isAsciiLower isAsciiUpper
      (pyStrip (collapseTriple isNl (collapseSpaceTab t))))
  have h5 := noPair_word_spIns (by decide) (by decide)
    (spIns_ocrSub isAsciiLower isAsciiDigit _) h4
  have h6 := noPair_word_spIns (by decide) (by decide)
    (spIns_ocrSub isAsciiDigit isAsciiLower _) h5
  have h7 := noPair_collapseQuad uniq_isDot _ h6
  have h8 := noPair_collapseQuad uniq_isDash _ h7
  exact noPair_pyStrip h8

theorem normalizeText_noPairLD (t : Text) :
    noPair isAsciiLower isAsciiDigit (normalizeText t) = true := by
  have h5 := noPair_ocrSub_self (X := isAsciiLower) (Y := isAsciiDigit) (fun _ hb => digit_not_lower hb) (by decide) (by decide)
    (ocrSub isDot isAsciiUpper (ocrSub isAsciiLower isAsciiUpper
      (pyStrip (collapseTriple isNl (collapseSpaceTab t)))))
  have h6 := noPair_word_spIns (by decide) (by decide)
    (spIns_ocrSub isAsciiDigit isAsciiLower _) h5
  have h7 := noPair_collapseQuad uniq_isDot _ h6
  have h8 := noPair_collapseQuad uniq_isDash _ h7
  exact noPair_pyStrip h8

theorem normalizeText_noPairDL (t : Text) :
    noPair isAsciiDigit isAsciiLower (normalizeText t) = true := by
  have h6 := noPair_ocrSub_self (X := isAsciiDigit) (Y := isAsciiLower) (fun _ hb => lower_not_digit hb) (by decide) (by decide)
    (ocrSub isAsciiLower isAsciiDigit (ocrSub isDot isAsciiUpper
      (ocrSub isAsciiLower isAsciiUpper
        (pyStrip (collapseTriple isNl (collapseSpaceTab t))))))
  have h7 := noPair_collapseQuad uniq_isDot _ h6
  have h8 := noPair_collapseQuad uniq_isDash _ h7
  exact noPair_pyStrip h8

theorem normalizeText_noQuadDot (t : Text) :
    noQuadRun isDot (normalizeText t) = true := by
  have h7 := noQuadRun_collapseQuad_self uniq_isDot
    (ocrSub isAsciiDigit isAsciiLower (ocrSub isAsciiLower isAsciiDigit
      (ocrSub isDot isAsciiUpper (ocrSub isAsciiLower isAsciiUpper
        (pyStrip (collapseTriple isNl (collapseSpaceTab t)))))))
  have h8 := noQuadRun_collapseQuad_other uniq_isDash _ h7
  exact noQuadRun_pyStrip h8

theorem normalizeText_noQuadDash (t : Text) :
    noQuadRun isDash (normalizeText t) = true := by
  have h8 := noQuadRun_collapseQuad_self uniq_isDash
    (collapseQuad isDot (ocrSub isAsciiDigit isAsciiLower
      (ocrSub isAsciiLower isAsciiDigit (ocrSub isDot isAsciiUpper
        (ocrSub isAsciiLower isAsciiUpper
          (pyStrip (collapseTriple isNl (collapseSpaceTab t))))))))
  exact noQuadRun_pyStrip h8

theorem normalizeText_noEdge (t : Text) : noEdgeWs (normalizeText t) = true :=
  pyStrip_noEdgeWs _

/-- C7: normalization is idempotent.  `normalizeText` is the transformation
pipeline of `TextPreprocessor.clean_chunk`: unicode compatibility
normalization, whitespace collapsing (`remove_excessive_whitespace`), the
four OCR space-insertion repairs, the two repeated-punctuation collapses,
and the final strip.  For every text `t`,
`normalizeText (normalizeText t) = normalizeText t`. -/
theorem normalize_idempotent (t : Text) :
    normalizeText (normalizeText t) = normalizeText t := by
  have e1 := collapseSpaceTab_eq_self (normalizeText t)
    (normalizeText_noTab t) (normalizeText_noPairSp t)
  show pyStrip (collapseQuad isDash (collapseQuad isDot
    (ocrSub isAsciiDigit isAsciiLower (ocrSub isAsciiLower isAsciiDigit
      (ocrSub isDot isAsciiUpper (ocrSub isAsciiLower isAsciiUpper
        (pyStrip (collapseTriple isNl
          (collapseSpaceTab (normalizeText t)))))))))) = normalizeText t
  rw [e1, collapseTriple_eq_self _ (normalizeText_noTripleNl t),
    pyStrip_eq_self (normalizeText_noEdge t),
    ocrSub_eq_self _ (normalizeText_noPairLU t),
    ocrSub_eq_self _ (normalizeText_noPairDotU t),
    ocrSub_eq_self _ (normalizeText_noPairLD t),
    ocrSub_eq_self _ (normalizeText_noPairDL t),
    collapseQuad_eq_self _ (normalizeText_noQuadDot t),
    collapseQuad_eq_self _ (normalizeText_noQuadDash t),
    pyStrip_eq_self (normalizeText_noEdge t)]

/-! ## Case-insensitive noise classification (C10) -/

/-- C10: because pattern `^[A-Z\s]{5,}$` is matched with `re.IGNORECASE`,
every string whose stripped form has length at least 15 and consists only
of ASCII letters and whitespace is classified as noise by
`is_noise_chunk`, regardless of letter case. -/
theorem all_letter_ws_is_noise (t : Text) (h15 : 15 ≤ (pyStrip t).length)
    (hall : ∀ c ∈ pyStrip t, isAsciiAlpha c = true ∨ isPyWs c = true) :
    is_noise_chunk t = true := by
  unfold is_noise_chunk
  rw [if_neg (by omega)]
  have h3 : noisePat3 (pyStrip t) = true := by
    unfold noisePat3
    rw [Bool.and_eq_true]
    refine ⟨decide_eq_true (by omega), ?_⟩
    rw [List.all_eq_true]
    intro c hc
    rcases hall c hc with h | h <;> simp [h]
  rw [if_pos]
  simp [h3]

/-- C10 (witness): an all-letters-and-spaces line of length 19 is noise. -/
theorem all_letter_ws_is_noise_witness :
    is_noise_chunk "hello world example".data = true :=
  all_letter_ws_is_noise "hello world example".data (by decide) (by decide)

/-! ## Relevance is Jaccard similarity (C6) -/

/-- C6: the relevance score is the Jaccard similarity of the
stop-word-free lowercase word sets of question and chunk, is 0 when the
question has no content words, and evaluates to 0 on the all-stop-words
example and to 1 on the identical-texts example. -/
theorem relevance_is_jaccard :
    (∀ chunk question : Text,
      calculate_relevance_score chunk question =
        if wordSet question \ relevanceStopWords = ∅ then 0
        else
          (((wordSet question \ relevanceStopWords) ∩
              (wordSet chunk \ relevanceStopWords)).card : ℚ) /
            (((wordSet question \ relevanceStopWords) ∪
              (wordSet chunk \ relevanceStopWords)).card : ℚ)) ∧
      calculate_relevance_score "the a an".data "is are was".data = 0 ∧
      calculate_relevance_score "apple banana".data "apple banana".data = 1 := by
  refine ⟨?_, ?_, ?_⟩
  case refine_2 =>
    have h : wordSet "is are was".data \ relevanceStopWords = ∅ := by decide
    simp [calculate_relevance_score, h]
  case refine_3 =>
    have hne : ¬ (wordSet "apple banana".data \ relevanceStopWords = ∅) := by decide
    have h1 : ((wordSet "apple banana".data \ relevanceStopWords) ∩
        (wordSet "apple banana".data \ relevanceStopWords)).card = 2 := by decide
    have h2 : ((wordSet "apple banana".data \ relevanceStopWords) ∪
        (wordSet "apple banana".data \ relevanceStopWords)).card = 2 := by decide
    simp only [calculate_relevance_score, hne, if_false, h1, h2]
    norm_num
  intro chunk question
  unfold calculate_relevance_score
  by_cases hq : wordSet question \ relevanceStopWords = ∅
  · simp [hq]
  · rw [if_neg hq, if_neg hq]
    rw [if_pos]
    calc 0 < (wordSet question \ relevanceStopWords).card :=
        Finset.card_pos.mpr (Finset.nonempty_iff_ne_empty.mpr hq)
      _ ≤ ((wordSet question \ relevanceStopWords) ∪
          (wordSet chunk \ relevanceStopWords)).card :=
        Finset.card_le_card Finset.subset_union_left

/-! ## Semantic density (C8) -/

/-- C8 (counterexample): on `"ab ab xyz"` the code's density is 1 (only
`"xyz"` survives the `len(w) > 2` filter), while the claim's formula —
which does not drop short words — gives 29/40; the claim as stated is
false. -/
theorem density_counterexample :
    calculate_semantic_density "ab ab xyz".data = 1 ∧
      densitySpecClaim "ab ab xyz".data = 29/40 ∧
      calculate_semantic_density "ab ab xyz".data ≠
        densitySpecClaim "ab ab xyz".data := by
  have hcode : calculate_semantic_density "ab ab xyz".data = 1 := by
    have hw : (wordsOf (lowerText "ab ab xyz".data)).isEmpty = false := by decide
    have hf : (wordsOf (lowerText "ab ab xyz".data)).filter
        (fun w => decide (w ∉ preprocessorStopWords) && decide (2 < w.length)) =
        ["xyz".data] := by decide
    have hcard : (["xyz".data] : List Text).toFinset.card = 1 := by decide
    have hsum : ((["xyz".data] : List Text).map List.length).sum = 3 := by decide
    simp only [calculate_semantic_density, hw, Bool.false_eq_true, if_false, hf,
      hcard, hsum, List.length_singleton]
    norm_num
  have hspec : densitySpecClaim "ab ab xyz".data = 29/40 := by
    have hf : (wordsOf (lowerText "ab ab xyz".data)).filter
        (fun w => decide (w ∉ preprocessorStopWords)) =
        ["ab".data, "ab".data, "xyz".data] := by decide
    have hcard : (["ab".data, "ab".data, "xyz".data] : List Text).toFinset.card = 2 := by
      decide
    have hsum : ((["ab".data, "ab".data, "xyz".data] : List Text).map List.length).sum
        = 7 := by decide
    simp only [densitySpecClaim, hf, hcard, hsum]
    norm_num
  refine ⟨hcode, hspec, ?_⟩
  rw [hcode, hspec]
  norm_num

/-- C8 (amended): the semantic density equals the claim's formula computed
over the lowercase words remaining after removing the fixed stop-word set
AND the words of length at most 2 (the code's `len(w) > 2` filter): the
unique-content-word ratio (0 if no content word remains) plus
`min(avg_content_word_length / 8, 1) * 0.2`, clamped to [0, 1]. -/
theorem density_amended (t : Text) :
    calculate_semantic_density t = densitySpecAmended t := by
  unfold calculate_semantic_density densitySpecAmended
  by_cases hw : (wordsOf (lowerText t)).isEmpty
  · rw [if_pos hw]
    rw [List.isEmpty_iff] at hw
    rw [hw]
    simp
  · rw [if_neg hw]
    by_cases hc : ((wordsOf (lowerText t)).filter
        (fun w => decide (w ∉ preprocessorStopWords) && decide (2 < w.length))).length = 0
    · rw [if_pos hc, if_pos hc]
    · rw [if_neg hc, if_neg hc]
      have hmax : max ((wordsOf (lowerText t)).filter
          (fun w => decide (w ∉ preprocessorStopWords) && decide (2 < w.length))).length 1 =
          ((wordsOf (lowerText t)).filter
          (fun w => decide (w ∉ preprocessorStopWords) && decide (2 < w.length))).length := by
        omega
      rw [hmax]

/-! ## Sentence splitting has no abbreviation guard (C9) -/

theorem noPair_snoc {P Q : Char → Bool} {c : Char} :
    ∀ {l : Text}, noPair P Q (l ++ [c]) = true ↔
      noPair P Q l = true ∧ ∀ x ∈ l.getLast?, (P x && Q c) = false := by
  intro l
  induction l with
  | nil => simp [noPair]
  | cons a l ih =>
    cases l with
    | nil => cases ha : P a <;> simp [noPair, ha]
    | cons b r =>
      rw [List.cons_append, noPair_cons, noPair_cons (t := b :: r)]
      rw [List.getLast?_cons_cons]
      constructor
      · rintro ⟨hw, ht⟩
        rcases ih.mp ht with ⟨h1, h2⟩
        exact ⟨⟨fun x hx => hw x (by simpa using hx), h1⟩, h2⟩
      · rintro ⟨⟨hw, h1⟩, h2⟩
        refine ⟨?_, ih.mpr ⟨h1, h2⟩⟩
        intro x hx
        exact hw x (by simpa using hx)

theorem splitSentencesAux_cons (skipping : Bool) (acc : Text) (c : Char) (r : Text) :
    splitSentencesAux skipping acc (c :: r) =
      if skipping then
        if isPyWs c then splitSentencesAux true [] r
        else splitSentencesAux false [c] r
      else
        if isPyWs c && (match acc with | p :: _ => isSentPunct p | [] => false) then
          acc.reverse :: splitSentencesAux true [] r
        else splitSentencesAux false (c :: acc) r := rfl

theorem splitSentencesAux_noPair :
    ∀ (skipping : Bool) (acc s : Text),
      noPair isSentPunct isPyWs acc.reverse = true →
      ((splitSentencesAux skipping acc s).all (noPair isSentPunct isPyWs)) = true := by
  intro skipping acc s
  induction skipping, acc, s using splitSentencesAux.induct with
  | case1 skipping acc =>
    intro h
    have : splitSentencesAux skipping acc [] = [acc.reverse] := rfl
    simp [this, h]
  | case2 acc c r hc ih =>
    intro h
    rw [splitSentencesAux_cons, if_pos rfl, if_pos hc]
    exact ih rfl
  | case3 acc c r hc ih =>
    intro h
    rw [splitSentencesAux_cons, if_pos rfl, if_neg hc]
    exact ih rfl
  | case4 skipping acc c r hsk hg ih =>
    intro h
    rw [splitSentencesAux_cons, if_neg hsk, if_pos hg]
    rw [List.all_cons, Bool.and_eq_true]
    exact ⟨h, ih rfl⟩
  | case5 skipping acc c r hsk hg ih =>
    intro h
    rw [splitSentencesAux_cons, if_neg hsk, if_neg hg]
    apply ih
    rw [List.reverse_cons, noPair_snoc]
    refine ⟨h, ?_⟩
    intro x hx
    rw [List.getLast?_reverse] at hx
    cases acc with
    | nil => simp at hx
    | cons p acc' =>
      simp only [List.head?_cons, Option.mem_def, Option.some.injEq] at hx
      subst hx
      rw [Bool.not_eq_true] at hg
      rw [Bool.and_comm]
      simpa using hg

/-- C9 (counterexample): the smart chunker's sentence split
`re.split(r'(?<=[.!?])\s+', ...)` has no abbreviation guard: a boundary is
introduced immediately after the abbreviation `"Dr."`, both in the raw
sentence split and in `split_by_semantic_boundaries` on an oversized
paragraph (token counter: number of words; paragraph has 6 > 2 tokens), in
which the standalone segment `"Dr."` is produced. -/
theorem abbrev_guard_counterexample :
    splitSentences "Dr. Go now. He left now.".data =
        ["Dr.".data, "Go now.".data, "He left now.".data] ∧
      split_by_semantic_boundaries wordCountTokens 2 "Dr. Go now. He left now.".data =
        ["Dr.".data, "Go now.".data, "He left now.".data] := by
  constructor
  · decide
  · decide

/-- C9 (amended): when a paragraph's token count exceeds `max_tokens`, the
smart chunker splits it into sentences at `.`, `!` or `?` followed by
whitespace with NO guard against abbreviation false-positives: every
occurrence of sentence punctuation followed by whitespace becomes a
boundary (so no produced sentence contains such an occurrence), including
immediately after abbreviations such as `"Dr."`, as the concrete split of
`"Dr. Smith arrived. He left."` shows.  (The abbreviation-guard pattern
exists only in the legacy `chunker.split_text`.) -/
theorem sentence_split_amended :
    (∀ p : Text, ((splitSentences p).all (noPair isSentPunct isPyWs)) = true) ∧
      splitSentences "Dr. Smith arrived. He left.".data =
        ["Dr.".data, "Smith arrived.".data, "He left.".data] := by
  constructor
  · intro p
    exact splitSentencesAux_noPair false [] p rfl
  · decide

/-! ## Stable descending sort: order, permutation, and tie stability -/

theorem sortByKeyDesc_sorted {α : Type} (key : α → ℚ) (l : List α) :
    (sortByKeyDesc key l).Pairwise (fun a b => key b ≤ key a) := by
  have ht : IsTotal α (fun a b => key b ≤ key a) := ⟨fun a b => le_total (key b) (key a)⟩
  have htr : IsTrans α (fun a b => key b ≤ key a) :=
    ⟨fun a b c h1 h2 => le_trans h2 h1⟩
  exact @List.sorted_insertionSort α _ _ ht htr l

theorem sortByKeyDesc_perm {α : Type} (key : α → ℚ) (l : List α) :
    (sortByKeyDesc key l).Perm l :=
  List.perm_insertionSort _ l

theorem orderedInsert_filter_class {α : Type} (key : α → ℚ) (s : ℚ) (x : α) :
    ∀ l : List α,
      (List.orderedInsert (fun a b => key b ≤ key a) x l).filter
          (fun a => decide (key a = s)) =
        if key x = s then
          x :: l.filter (fun a => decide (key a = s))
        else l.filter (fun a => decide (key a = s)) := by
  intro l
  induction l with
  | nil =>
    by_cases h : key x = s <;>
      simp [List.orderedInsert, List.filter_cons, h]
  | cons y l ih =>
    rw [List.orderedInsert]
    by_cases hr : key y ≤ key x
    · rw [if_pos hr]
      by_cases hx : key x = s <;>
        simp [List.filter_cons, hx]
    · rw [if_neg hr]
      rw [List.filter_cons, ih]
      by_cases hx : key x = s
      · have hy : ¬ (key y = s) := by
          intro he
          exact hr (le_of_eq (by rw [he, hx]))
        simp [hx, hy, List.filter_cons]
      · by_cases hy : key y = s <;> simp [hx, hy, List.filter_cons]

theorem sortByKeyDesc_filter_class {α : Type} (key : α → ℚ) (s : ℚ) :
    ∀ l : List α,
      (sortByKeyDesc key l).filter (fun a => decide (key a = s)) =
        l.filter (fun a => decide (key a = s)) := by
  intro l
  induction l with
  | nil => rfl
  | cons x l ih =>
    show ((List.orderedInsert _ x (List.insertionSort _ l)).filter _) = _
    rw [orderedInsert_filter_class]
    have ihs : (List.insertionSort (fun a b => key b ≤ key a) l).filter
        (fun a => decide (key a = s)) = l.filter (fun a => decide (key a = s)) := ih
    by_cases hx : key x = s <;>
      simp [hx, List.filter_cons, ihs]

/-- C5: for every chunk list, question, `min_relevance` and `max_chunks`,
the ranker returns the (cleaned) chunks sorted in descending relevance
order, with every chunk scoring below `min_relevance` dropped, the result
truncated to at most `max_chunks` entries, and equal-scoring chunks keeping
their original relative order: for every score value, the output's chunks
of that score form a sublist of the cleaned input's chunks of that score,
in first-seen order. -/
theorem filter_and_rank_props (chunks : List Text) (question : Text)
    (minRel : ℚ) (maxChunks : Nat) :
    (filter_and_rank_chunks minRel maxChunks chunks question).Pairwise
        (fun a b => calculate_relevance_score b question ≤
          calculate_relevance_score a question) ∧
      ((filter_and_rank_chunks minRel maxChunks chunks question).all
        (fun c => decide (minRel ≤ calculate_relevance_score c question))) = true ∧
      (filter_and_rank_chunks minRel maxChunks chunks question).length ≤ maxChunks ∧
      ∀ s : ℚ,
        ((filter_and_rank_chunks minRel maxChunks chunks question).filter
            (fun c => decide (calculate_relevance_score c question = s))).Sublist
          (((chunks.map clean_text).filter (fun c => !c.isEmpty)).filter
            (fun c => decide (calculate_relevance_score c question = s))) := by
  by_cases hemp : ((chunks.map clean_text).filter (fun c => !c.isEmpty)).isEmpty
  · have hout : filter_and_rank_chunks minRel maxChunks chunks question = [] := by
      simp only [filter_and_rank_chunks]
      rw [if_pos hemp]
    rw [hout]
    refine ⟨List.Pairwise.nil, rfl, by simp, ?_⟩
    intro s
    simp
  · have hout : filter_and_rank_chunks minRel maxChunks chunks question =
        (((sortByKeyDesc (fun p : Text × ℚ => p.2)
            (((chunks.map clean_text).filter (fun c => !c.isEmpty)).map
              (fun c => (c, calculate_relevance_score c question)))).filter
          (fun p => decide (minRel ≤ p.2))).map Prod.fst).take maxChunks := by
      simp only [filter_and_rank_chunks]
      rw [if_neg hemp]
    have hinv : ∀ p ∈ sortByKeyDesc (fun p : Text × ℚ => p.2)
        (((chunks.map clean_text).filter (fun c => !c.isEmpty)).map
          (fun c => (c, calculate_relevance_score c question))),
        p.2 = calculate_relevance_score p.1 question := by
      intro p hp
      have hp2 := (sortByKeyDesc_perm (fun p : Text × ℚ => p.2) _).mem_iff.mp hp
      rcases List.mem_map.mp hp2 with ⟨c, hc, rfl⟩
      rfl
    have hAsub : ((sortByKeyDesc (fun p : Text × ℚ => p.2)
        (((chunks.map clean_text).filter (fun c => !c.isEmpty)).map
          (fun c => (c, calculate_relevance_score c question)))).filter
        (fun p => decide (minRel ≤ p.2))).Sublist
        (sortByKeyDesc (fun p : Text × ℚ => p.2)
          (((chunks.map clean_text).filter (fun c => !c.isEmpty)).map
            (fun c => (c, calculate_relevance_score c question)))) :=
      List.filter_sublist _
    refine ⟨?_, ?_, ?_, ?_⟩
    · rw [hout]
      have hsortpair := sortByKeyDesc_sorted (fun p : Text × ℚ => p.2)
        (((chunks.map clean_text).filter (fun c => !c.isEmpty)).map
          (fun c => (c, calculate_relevance_score c question)))
      have hApair := List.Pairwise.sublist hAsub hsortpair
      have hmap : ((((sortByKeyDesc (fun p : Text × ℚ => p.2)
          (((chunks.map clean_text).filter (fun c => !c.isEmpty)).map
            (fun c => (c, calculate_relevance_score c question)))).filter
          (fun p => decide (minRel ≤ p.2))).map Prod.fst)).Pairwise
          (fun a b => calculate_relevance_score b question ≤
            calculate_relevance_score a question) := by
        rw [List.pairwise_map]
        refine List.Pairwise.imp_of_mem ?_ hApair
        intro p q hp hq hle
        rw [← hinv p (hAsub.subset hp), ← hinv q (hAsub.subset hq)]
        exact hle
      exact List.Pairwise.sublist (List.take_sublist _ _) hmap
    · rw [hout, List.all_eq_true]
      intro c hc
      have hc1 := List.mem_of_mem_take hc
      rcases List.mem_map.mp hc1 with ⟨p, hpA, rfl⟩
      rcases List.mem_filter.mp hpA with ⟨hpsorted, hpred⟩
      rw [decide_eq_true_eq] at hpred ⊢
      rw [← hinv p hpsorted]
      exact hpred
    · rw [hout]
      exact List.length_take_le _ _
    · intro s
      rw [hout]
      refine List.Sublist.trans (List.Sublist.filter _ (List.take_sublist _ _)) ?_
      rw [List.filter_map]
      have e2 : ((sortByKeyDesc (fun p : Text × ℚ => p.2)
          (((chunks.map clean_text).filter (fun c => !c.isEmpty)).map
            (fun c => (c, calculate_relevance_score c question)))).filter
          (fun p => decide (minRel ≤ p.2))).filter
          ((fun c => decide (calculate_relevance_score c question = s)) ∘ Prod.fst) =
        ((sortByKeyDesc (fun p : Text × ℚ => p.2)
          (((chunks.map clean_text).filter (fun c => !c.isEmpty)).map
            (fun c => (c, calculate_relevance_score c question)))).filter
          (fun p => decide (minRel ≤ p.2))).filter
          (fun p => decide (p.2 = s)) := by
        apply List.filter_congr
        intro p hp
        show decide (calculate_relevance_score p.1 question = s) = decide (p.2 = s)
        rw [hinv p (hAsub.subset hp)]
      rw [e2]
      refine List.Sublist.trans
        (List.Sublist.map Prod.fst (List.Sublist.filter _ hAsub)) ?_
      have e4 := sortByKeyDesc_filter_class (fun p : Text × ℚ => p.2) s
        ((((chunks.map clean_text).filter (fun c => !c.isEmpty)).map
          (fun c => (c, calculate_relevance_score c question))))
      rw [e4, List.filter_map, List.map_map]
      have e6 : (Prod.fst ∘ fun c : Text =>
          (c, calculate_relevance_score c question)) = id := rfl
      rw [e6, List.map_id]
      exact List.Sublist.refl _

/-! ## Empty-context short circuit (C3) -/

/-- C3: with advanced filtering enabled (as in ANSWER_CONFIG), whenever the
context chunk list is empty, or the quality-filtering stage
(`preprocess_document_chunks`) or the relevance stage
(`filter_and_rank_chunks`) yields zero chunks, `generate_answer` returns
exactly the literal refusal string without invoking the generation
collaborator (the outcome is `answer`, never `callModel`). -/
theorem empty_context_refusal (cfg : AnswerConfig) (context_chunks : List Text)
    (question : Text) (hadv : cfg.enable_advanced_filtering = true)
    (h : context_chunks = [] ∨
      preprocess_document_chunks context_chunks cfg.max_context_chunks = [] ∨
      filter_and_rank_chunks cfg.min_relevance_threshold cfg.max_context_chunks
        (preprocess_document_chunks context_chunks cfg.max_context_chunks)
        question = []) :
    generate_answer cfg context_chunks question = .answer refusalText := by
  have hpre : context_chunks = [] →
      preprocess_document_chunks context_chunks cfg.max_context_chunks = [] := by
    rintro rfl
    simp [preprocess_document_chunks, rank_chunks_by_quality, sortByKeyDesc,
      List.insertionSort]
  simp only [generate_answer]
  rw [if_pos hadv]
  rcases h with hc | hc | hc
  · rw [hpre hc]
    rfl
  · rw [hc]
    rfl
  · by_cases hcl : (preprocess_document_chunks context_chunks
        cfg.max_context_chunks).isEmpty
    · rw [if_pos hcl]
    · rw [if_neg hcl, if_pos (by rw [hc]; rfl)]

/-- C3 (witness): the empty context list yields the refusal literal. -/
theorem empty_context_refusal_witness :
    generate_answer ANSWER_CONFIG [] [] = .answer refusalText :=
  empty_context_refusal ANSWER_CONFIG [] [] rfl (Or.inl rfl)
